import Mathlib

set_option maxHeartbeats 1600000
set_option maxRecDepth 8000

/-!
Verification of the LibreTV HLS rewriting proxy (the `api/proxy`
serverless function).  JavaScript strings are modelled as Lean strings
(lists of Unicode scalar values).  Machine-level concerns that the claims
do not touch (UTF-16 lone surrogates, float precision of `parseInt`
beyond 2^53, randomized User-Agent selection) are outside the model and
noted at the definitions they would affect.
-/

namespace LibreTV

/-- ASCII lower-casing of a single character, as performed by the
case-insensitive `i` flag of the regexes in the source. -/
def asciiLower (c : Char) : Char :=
  if 'A' ≤ c ∧ c ≤ 'Z' then Char.ofNat (c.toNat + 32) else c

/-- Case-insensitive prefix test: `pat` (already lower-case) is compared
against the ASCII-lower-cased input. -/
def isPrefixCI (pat : List Char) (l : List Char) : Bool :=
  pat.isPrefixOf (l.map asciiLower)

/-- The test `/^https?:\/\//i` applied throughout the source
(`getTargetUrlFromPath`, `resolveUrl`). -/
def httpRegexB (s : String) : Bool :=
  isPrefixCI "http://".data s.data || isPrefixCI "https://".data s.data


def hexVal (c : Char) : Option Nat :=
  if '0' ≤ c ∧ c ≤ '9' then some (c.toNat - 48)
  else if 'A' ≤ c ∧ c ≤ 'F' then some (c.toNat - 55)
  else if 'a' ≤ c ∧ c ≤ 'f' then some (c.toNat - 87)
  else none

def isUriUnreserved (c : Char) : Bool :=
  decide (('A' ≤ c ∧ c ≤ 'Z') ∨ ('a' ≤ c ∧ c ≤ 'z') ∨ ('0' ≤ c ∧ c ≤ '9')) ||
  decide (c = '-' ∨ c = '_' ∨ c = '.' ∨ c = '!' ∨ c = '~' ∨ c = '*' ∨
          c = Char.ofNat 39 ∨ c = '(' ∨ c = ')')

def hexUpper (n : Nat) : Char :=
  if n < 10 then Char.ofNat (48 + n) else Char.ofNat (55 + n)

def pctByte (b : Nat) : List Char := ['%', hexUpper (b / 16), hexUpper (b % 16)]

def utf8Bytes (v : Nat) : List Nat :=
  if v < 128 then [v]
  else if v < 2048 then [192 + v / 64, 128 + v % 64]
  else if v < 65536 then [224 + v / 4096, 128 + (v / 64) % 64, 128 + v % 64]
  else [240 + v / 262144, 128 + (v / 4096) % 64, 128 + (v / 64) % 64, 128 + v % 64]

def pctBytes : List Nat → List Char
  | [] => []
  | b :: rest => pctByte b ++ pctBytes rest

def encodeChar (c : Char) : List Char :=
  if isUriUnreserved c then [c] else pctBytes (utf8Bytes c.toNat)

def encodeURIComponentL : List Char → List Char
  | [] => []
  | c :: rest => encodeChar c ++ encodeURIComponentL rest

/-- Read one `%XY` escape from the front of the list. -/
def readPct (l : List Char) : Option (Nat × List Char) :=
  match l with
  | '%' :: h :: t :: rest =>
    match hexVal h, hexVal t with
    | some hv, some lv => some (16 * hv + lv, rest)
    | _, _ => none
  | _ => none

/-- One step of the ECMAScript `Decode` algorithm: decode the escape
sequence (or literal character) starting at `c`, returning the decoded
character and the remaining input. -/
def decodeStep (c : Char) (rest : List Char) : Option (Char × List Char) :=
  if c = '%' then
    match readPct ('%' :: rest) with
    | none => none
    | some (b0, rest1) =>
      if b0 < 128 then some (Char.ofNat b0, rest1)
      else if 194 ≤ b0 ∧ b0 ≤ 223 then
        match readPct rest1 with
        | none => none
        | some (b1, rest2) =>
          if 128 ≤ b1 ∧ b1 ≤ 191 then
            some (Char.ofNat ((b0 - 192) * 64 + (b1 - 128)), rest2)
          else none
      else if 224 ≤ b0 ∧ b0 ≤ 239 then
        match readPct rest1 with
        | none => none
        | some (b1, rest2) =>
          match readPct rest2 with
          | none => none
          | some (b2, rest3) =>
            if (128 ≤ b1 ∧ b1 ≤ 191) ∧ (128 ≤ b2 ∧ b2 ≤ 191) then
              let v := (b0 - 224) * 4096 + (b1 - 128) * 64 + (b2 - 128)
              if 2048 ≤ v ∧ (v < 55296 ∨ 57344 ≤ v) then
                some (Char.ofNat v, rest3)
              else none
            else none
      else if 240 ≤ b0 ∧ b0 ≤ 244 then
        match readPct rest1 with
        | none => none
        | some (b1, rest2) =>
          match readPct rest2 with
          | none => none
          | some (b2, rest3) =>
            match readPct rest3 with
            | none => none
            | some (b3, rest4) =>
              if (128 ≤ b1 ∧ b1 ≤ 191) ∧ (128 ≤ b2 ∧ b2 ≤ 191) ∧
                 (128 ≤ b3 ∧ b3 ≤ 191) then
                let v := (b0 - 240) * 262144 + (b1 - 128) * 4096 +
                         (b2 - 128) * 64 + (b3 - 128)
                if 65536 ≤ v ∧ v ≤ 1114111 then
                  some (Char.ofNat v, rest4)
                else none
              else none
      else none
  else some (c, rest)

/-- Decode loop; `fuel` only bounds the recursion and is always supplied
as the input length, which `decodeStep` never increases. -/
def decodeLoop : Nat → List Char → Option (List Char)
  | _, [] => some []
  | 0, _ :: _ => none
  | fuel + 1, c :: rest =>
    match decodeStep c rest with
    | some (d, rest2) => (decodeLoop fuel rest2).map (d :: ·)
    | none => none

def decodeURIComponentL (l : List Char) : Option (List Char) := decodeLoop l.length l

-- helper lemmas

theorem charToNat_ofNat {n : Nat} (h : n.isValidChar) : (Char.ofNat n).toNat = n := by
  unfold Char.ofNat
  rw [dif_pos h]
  rfl

theorem char_valid (c : Char) : c.toNat < 55296 ∨ (57344 ≤ c.toNat ∧ c.toNat < 1114112) := by
  have h := c.valid
  unfold UInt32.isValidChar Nat.isValidChar at h
  rcases h with h | ⟨h1, h2⟩
  · exact Or.inl h
  · exact Or.inr ⟨h1, h2⟩

theorem hexVal_hexUpper {n : Nat} (h : n < 16) : hexVal (hexUpper n) = some n := by
  interval_cases n <;> decide

theorem readPct_pctByte {b : Nat} (hb : b < 256) (t : List Char) :
    readPct (pctByte b ++ t) = some (b, t) := by
  have h1 : b / 16 < 16 := by omega
  have h2 : b % 16 < 16 := by omega
  have hrec : 16 * (b / 16) + b % 16 = b := by omega
  simp [pctByte, readPct, hexVal_hexUpper h1, hexVal_hexUpper h2, hrec]

theorem hexUpper_ne_pct {n : Nat} (h : n < 16) : ¬ hexUpper n = '%' := by
  interval_cases n <;> decide

theorem decodeStep_not_pct {c : Char} (h : ¬ c = '%') (t : List Char) :
    decodeStep c t = some (c, t) := by
  simp [decodeStep, h]

/-- Decode the escape (or literal) at the front of a non-empty list. -/
def decodeFront (l : List Char) : Option (Char × List Char) :=
  match l with
  | [] => none
  | c :: r => decodeStep c r

theorem readPct_cons {b : Nat} (hb : b < 256) (t : List Char) :
    readPct ('%' :: hexUpper (b / 16) :: hexUpper (b % 16) :: t) = some (b, t) := by
  have h1 : b / 16 < 16 := by omega
  have h2 : b % 16 < 16 := by omega
  have hrec : 16 * (b / 16) + b % 16 = b := by omega
  simp [readPct, hexVal_hexUpper h1, hexVal_hexUpper h2, hrec]

theorem decodeFront_1 {b0 : Nat} (hb : b0 < 128) (t : List Char) :
    decodeFront (pctByte b0 ++ t) = some (Char.ofNat b0, t) := by
  simp only [pctByte, List.cons_append, List.nil_append, decodeFront]
  rw [decodeStep, if_pos rfl, readPct_cons (by omega)]
  dsimp only
  rw [if_pos hb]

theorem decodeFront_2 {b0 b1 : Nat} (hb0 : 194 ≤ b0 ∧ b0 ≤ 223)
    (hb1 : 128 ≤ b1 ∧ b1 ≤ 191) (t : List Char) :
    decodeFront (pctByte b0 ++ (pctByte b1 ++ t)) =
      some (Char.ofNat ((b0 - 192) * 64 + (b1 - 128)), t) := by
  simp only [pctByte, List.cons_append, List.nil_append, decodeFront]
  rw [decodeStep, if_pos rfl, readPct_cons (by omega)]
  dsimp only
  rw [if_neg (by omega), if_pos hb0, readPct_cons (by omega)]
  dsimp only
  rw [if_pos hb1]

theorem decodeFront_3 {b0 b1 b2 : Nat} (hb0 : 224 ≤ b0 ∧ b0 ≤ 239)
    (hb1 : 128 ≤ b1 ∧ b1 ≤ 191) (hb2 : 128 ≤ b2 ∧ b2 ≤ 191)
    (hv : 2048 ≤ (b0 - 224) * 4096 + (b1 - 128) * 64 + (b2 - 128) ∧
          ((b0 - 224) * 4096 + (b1 - 128) * 64 + (b2 - 128) < 55296 ∨
           57344 ≤ (b0 - 224) * 4096 + (b1 - 128) * 64 + (b2 - 128)))
    (t : List Char) :
    decodeFront (pctByte b0 ++ (pctByte b1 ++ (pctByte b2 ++ t))) =
      some (Char.ofNat ((b0 - 224) * 4096 + (b1 - 128) * 64 + (b2 - 128)), t) := by
  simp only [pctByte, List.cons_append, List.nil_append, decodeFront]
  rw [decodeStep, if_pos rfl, readPct_cons (by omega)]
  dsimp only
  rw [if_neg (by omega), if_neg (by omega), if_pos hb0, readPct_cons (by omega)]
  dsimp only
  rw [readPct_cons (by omega)]
  dsimp only
  rw [if_pos ⟨hb1, hb2⟩, if_pos hv]

theorem decodeFront_4 {b0 b1 b2 b3 : Nat} (hb0 : 240 ≤ b0 ∧ b0 ≤ 244)
    (hb1 : 128 ≤ b1 ∧ b1 ≤ 191) (hb2 : 128 ≤ b2 ∧ b2 ≤ 191)
    (hb3 : 128 ≤ b3 ∧ b3 ≤ 191)
    (hv : 65536 ≤ (b0 - 240) * 262144 + (b1 - 128) * 4096 + (b2 - 128) * 64 + (b3 - 128) ∧
          (b0 - 240) * 262144 + (b1 - 128) * 4096 + (b2 - 128) * 64 + (b3 - 128) ≤ 1114111)
    (t : List Char) :
    decodeFront (pctByte b0 ++ (pctByte b1 ++ (pctByte b2 ++ (pctByte b3 ++ t)))) =
      some (Char.ofNat ((b0 - 240) * 262144 + (b1 - 128) * 4096 + (b2 - 128) * 64 + (b3 - 128)), t) := by
  simp only [pctByte, List.cons_append, List.nil_append, decodeFront]
  rw [decodeStep, if_pos rfl, readPct_cons (by omega)]
  dsimp only
  rw [if_neg (by omega), if_neg (by omega), if_neg (by omega), if_pos hb0,
      readPct_cons (by omega)]
  dsimp only
  rw [readPct_cons (by omega)]
  dsimp only
  rw [readPct_cons (by omega)]
  dsimp only
  rw [if_pos ⟨hb1, hb2, hb3⟩, if_pos hv]

theorem isUriUnreserved_ne_pct {c : Char} (h : isUriUnreserved c = true) : ¬ c = '%' := by
  intro heq
  rw [heq] at h
  exact absurd h (by decide)

theorem decodeFront_encodeChar (c : Char) (t : List Char) :
    decodeFront (encodeChar c ++ t) = some (c, t) := by
  by_cases hu : isUriUnreserved c = true
  · rw [encodeChar, if_pos hu]
    simp only [List.cons_append, List.nil_append, decodeFront]
    rw [decodeStep_not_pct (isUriUnreserved_ne_pct hu)]
  · rw [encodeChar, if_neg hu]
    have hval := char_valid c
    set v := c.toNat with hv
    by_cases h1 : v < 128
    · rw [utf8Bytes, if_pos h1]
      simp only [pctBytes, List.append_nil, List.append_assoc]
      rw [decodeFront_1 h1, Char.ofNat_toNat]
    · by_cases h2 : v < 2048
      · rw [utf8Bytes, if_neg h1, if_pos h2]
        simp only [pctBytes, List.append_nil, List.append_assoc]
        rw [decodeFront_2 (by omega) (by omega)]
        congr 1
        congr 1
        have : (192 + v / 64 - 192) * 64 + (128 + v % 64 - 128) = v := by omega
        rw [this, Char.ofNat_toNat]
      · by_cases h3 : v < 65536
        · rw [utf8Bytes, if_neg h1, if_neg h2, if_pos h3]
          simp only [pctBytes, List.append_nil, List.append_assoc]
          rw [decodeFront_3 (by omega) (by omega) (by omega) (by omega)]
          congr 1
          congr 1
          have : (224 + v / 4096 - 224) * 4096 + (128 + v / 64 % 64 - 128) * 64 +
              (128 + v % 64 - 128) = v := by omega
          rw [this, Char.ofNat_toNat]
        · rw [utf8Bytes, if_neg h1, if_neg h2, if_neg h3]
          simp only [pctBytes, List.append_nil, List.append_assoc]
          rw [decodeFront_4 (by omega) (by omega) (by omega) (by omega) (by omega)]
          congr 1
          congr 1
          have : (240 + v / 262144 - 240) * 262144 + (128 + v / 4096 % 64 - 128) * 4096 +
              (128 + v / 64 % 64 - 128) * 64 + (128 + v % 64 - 128) = v := by omega
          rw [this, Char.ofNat_toNat]

theorem encodeChar_ne_nil (c : Char) : encodeChar c ≠ [] := by
  rw [encodeChar]
  by_cases hu : isUriUnreserved c = true
  · simp [hu]
  · rw [if_neg hu, utf8Bytes]
    by_cases h1 : c.toNat < 128
    · simp [h1, pctBytes, pctByte]
    · by_cases h2 : c.toNat < 2048
      · simp [h1, h2, pctBytes, pctByte]
      · by_cases h3 : c.toNat < 65536
        · simp [h1, h2, h3, pctBytes, pctByte]
        · simp [h1, h2, h3, pctBytes, pctByte]

theorem decodeLoop_encode (s : List Char) :
    ∀ fuel, (encodeURIComponentL s).length ≤ fuel →
      decodeLoop fuel (encodeURIComponentL s) = some s := by
  induction s with
  | nil =>
    intro fuel _
    rw [encodeURIComponentL]
    cases fuel <;> rfl
  | cons c s ih =>
    intro fuel hfuel
    rw [encodeURIComponentL] at hfuel ⊢
    have hlen1 : 1 ≤ (encodeChar c).length := by
      cases hec : encodeChar c with
      | nil => exact absurd hec (encodeChar_ne_nil c)
      | cons x xs => simp
    rw [List.length_append] at hfuel
    cases fuel with
    | zero => omega
    | succ f =>
      have hlen : (encodeURIComponentL s).length ≤ f := by omega
      have hfront := decodeFront_encodeChar c (encodeURIComponentL s)
      cases hec : encodeChar c with
      | nil => exact absurd hec (encodeChar_ne_nil c)
      | cons x xs =>
        rw [hec] at hfront
        simp only [List.cons_append, decodeFront] at hfront ⊢
        rw [decodeLoop, hfront]
        dsimp only
        rw [ih f hlen]
        rfl

theorem decode_encode (s : List Char) :
    decodeURIComponentL (encodeURIComponentL s) = some s :=
  decodeLoop_encode s _ (Nat.le_refl _)


/-- `String.mk` of the underlying character list is the string itself. -/
theorem stringMk_data (s : String) : String.mk s.data = s := by
  cases s
  rfl

/-- A string is empty exactly when its character list is. -/
theorem string_eq_empty_iff (s : String) : s = "" ↔ s.data = [] := by
  constructor
  · intro h
    rw [h]
  · intro h
    cases s
    simp at h
    rw [h]

theorem encodeURIComponentL_ne_nil {l : List Char} (h : l ≠ []) :
    encodeURIComponentL l ≠ [] := by
  cases l with
  | nil => exact absurd rfl h
  | cons c rest =>
    rw [encodeURIComponentL]
    intro hn
    rcases List.append_eq_nil.mp hn with ⟨h1, _⟩
    exact encodeChar_ne_nil c h1

/-- JavaScript `encodeURIComponent`. -/
def encodeURIComponent (s : String) : String := ⟨encodeURIComponentL s.data⟩

/-- JavaScript `decodeURIComponent`; `none` models the thrown `URIError`. -/
def decodeURIComponent (s : String) : Option String :=
  (decodeURIComponentL s.data).map String.mk

/-- Round trip of the two URI-component codecs on whole strings. -/
theorem decodeURIComponent_encodeURIComponent (s : String) :
    decodeURIComponent (encodeURIComponent s) = some s := by
  rw [decodeURIComponent, encodeURIComponent]
  show (decodeURIComponentL (encodeURIComponentL s.data)).map String.mk = _
  rw [decode_encode]
  show some (String.mk s.data) = some s
  rw [stringMk_data]

theorem encodeURIComponent_ne_empty {s : String} (h : s ≠ "") :
    encodeURIComponent s ≠ "" := by
  intro hc
  rw [string_eq_empty_iff] at hc
  exact encodeURIComponentL_ne_nil (fun hd => h ((string_eq_empty_iff s).mpr hd)) hc

/-- Source `rewriteUrlToProxy` (part_000, lines 78-82): percent-encode the
absolute URL and mount it under the fixed proxy prefix. -/
def rewriteUrlToProxy (targetUrl : String) : String :=
  if targetUrl = "" then "" else "/api/proxy/" ++ encodeURIComponent targetUrl

/-- Source `getTargetUrlFromPath` (part_000, lines 14-33): percent-decode
the path; if the decoded form matches `^https?://` return it, else if the
raw form matches return the raw form; a decoding error (the `catch`
branch) or no match yields `null`. -/
def getTargetUrlFromPath (encodedPath : String) : Option String :=
  if encodedPath = "" then none
  else
    match decodeURIComponent encodedPath with
    | some decodedUrl =>
      if httpRegexB decodedUrl then some decodedUrl
      else if httpRegexB encodedPath then some encodedPath
      else none
    | none => none

/-- C1: for every absolute HTTP or HTTPS URL `u` (a string matching the
source's `^https?://` test), the percent-encoded segment that
`rewriteUrlToProxy` embeds under the `/api/proxy/` mount prefix decodes
back to exactly `u` through `getTargetUrlFromPath`. -/
theorem c1_proxy_path_roundtrip (u : String) (hu : httpRegexB u = true) :
    ∃ seg : String, rewriteUrlToProxy u = "/api/proxy/" ++ seg ∧
      getTargetUrlFromPath seg = some u := by
  have hne : u ≠ "" := by
    intro h
    rw [h] at hu
    exact absurd hu (by decide)
  refine ⟨encodeURIComponent u, ?_, ?_⟩
  · rw [rewriteUrlToProxy, if_neg hne]
  · rw [getTargetUrlFromPath, if_neg (encodeURIComponent_ne_empty hne),
        decodeURIComponent_encodeURIComponent]
    dsimp only
    rw [if_pos hu]

/-- Witness for C1 at a concrete URL containing characters that need
percent-encoding. -/
theorem c1_proxy_path_roundtrip_witness :
    httpRegexB "http://h/a b" = true ∧
    ∃ seg : String, rewriteUrlToProxy "http://h/a b" = "/api/proxy/" ++ seg ∧
      getTargetUrlFromPath seg = some "http://h/a b" :=
  ⟨by decide, c1_proxy_path_roundtrip "http://h/a b" (by decide)⟩

/-- C6 counterexample: on a raw segment that matches `^https?://` but whose
percent-decoding fails, `getTargetUrlFromPath` returns `null` (the `catch`
branch), not the raw segment as the claim states. -/
theorem c6_decode_failure_counterexample :
    httpRegexB "http://x/%zz" = true ∧ decodeURIComponent "http://x/%zz" = none ∧
    getTargetUrlFromPath "http://x/%zz" = none := by decide

/-- C6 amended: the raw-segment fallback applies only when decoding
succeeds but the decoded form does not match `^https?://`; the result is
`null` exactly when the segment is empty, decoding fails (regardless of
the raw form), or neither the decoded nor the raw form matches. -/
theorem c6_null_characterization (s : String) :
    getTargetUrlFromPath s = none ↔
      (s = "" ∨ decodeURIComponent s = none ∨
        ∃ d, decodeURIComponent s = some d ∧ httpRegexB d = false ∧ httpRegexB s = false) := by
  rw [getTargetUrlFromPath]
  by_cases hs : s = ""
  · simp [hs]
  · rw [if_neg hs]
    cases hdec : decodeURIComponent s with
    | none => simp [hs, hdec]
    | some d =>
      by_cases h1 : httpRegexB d
      · simp [hs, hdec, h1]
      · by_cases h2 : httpRegexB s
        · simp [hs, hdec, h1, h2]
        · simp [hs, hdec, h1, h2]

/-! ### URL model

The source delegates URL arithmetic to the WHATWG `URL` class of Node.
The definitions below model the fragment of that class the proxy
exercises: absolute `http(s)` URLs with a plain host (no userinfo, no
IPv6 bracket syntax, no embedded tabs/newlines, no backslash
separators), resolved against references that are scheme-ful, authority-
relative (`//…`), absolute-path, query-only, fragment-only or
path-relative.  `none` stands for a thrown `TypeError`; inputs outside
the modelled fragment also map to `none` and are excluded by the
hypotheses of the theorems that rely on this model. -/

def splitConsHead (c : Char) : List (List Char) → List (List Char)
  | [] => [[c]]
  | g :: gs => (c :: g) :: gs

/-- JavaScript `String.prototype.split` with a one-character separator. -/
def splitC (sep : Char) : List Char → List (List Char)
  | [] => [[]]
  | c :: rest =>
    if c = sep then [] :: splitC sep rest else splitConsHead c (splitC sep rest)

/-- JavaScript `Array.prototype.join` with a one-character separator. -/
def joinC (sep : Char) : List (List Char) → List Char
  | [] => []
  | [g] => g
  | g :: g2 :: rest => g ++ sep :: joinC sep (g2 :: rest)

def jsSplit (sep : Char) (s : String) : List String := (splitC sep s.data).map String.mk

def jsJoin (sep : Char) (parts : List String) : String := ⟨joinC sep (parts.map String.data)⟩

def digitChar (n : Nat) : Char := Char.ofNat (48 + n)

def digitsAux : Nat → Nat → List Char
  | 0, _ => []
  | fuel + 1, n => if n < 10 then [digitChar n] else digitsAux fuel (n / 10) ++ [digitChar (n % 10)]

/-- Canonical decimal digits of a number (port serialization). -/
def natDigits (n : Nat) : List Char := digitsAux (n + 1) n

/-- Value of a string of decimal digits (port parsing). -/
def natOfDigits (ds : List Char) : Nat := ds.foldl (fun a c => 10 * a + (c.toNat - 48)) 0

structure UrlRec where
  scheme : String
  host : String
  pathSegs : List String
  query : String
  frag : String
deriving DecidableEq

def UrlRec.origin (u : UrlRec) : String := u.scheme ++ "://" ++ u.host

def joinSegs : List String → String
  | [] => ""
  | [s] => s
  | s :: s2 :: rest => s ++ "/" ++ joinSegs (s2 :: rest)

def UrlRec.pathname (u : UrlRec) : String := "/" ++ joinSegs u.pathSegs

def serializeUrl (u : UrlRec) : String := u.origin ++ u.pathname ++ u.query ++ u.frag

/-- WHATWG dot-segment removal over a list of path segments; `acc` holds
the output segments in reverse.  A final `.` or `..` leaves a trailing
empty segment (so the path keeps its trailing slash). -/
def normSegsCore : List String → List String → List String
  | acc, [] => acc.reverse
  | acc, [s] =>
    if s = ".." then ("" :: acc.drop 1).reverse
    else if s = "." then ("" :: acc).reverse
    else (s :: acc).reverse
  | acc, s :: s2 :: rest =>
    if s = ".." then normSegsCore (acc.drop 1) (s2 :: rest)
    else if s = "." then normSegsCore acc (s2 :: rest)
    else normSegsCore (s :: acc) (s2 :: rest)

def normSegs (segs : List String) : List String := normSegsCore [] segs

def isAuthorityDelim (c : Char) : Bool := decide (c = '/' ∨ c = '?' ∨ c = '#')

def isQueryFragDelim (c : Char) : Bool := decide (c = '?' ∨ c = '#')

def isDigitB (c : Char) : Bool := decide ('0' ≤ c ∧ c ≤ '9')

/-- Host/port normalization of the WHATWG parser for a special scheme:
lower-case the host, validate the port digits and range, and drop the
scheme's default port. -/
def parseAuthority (scheme : String) (auth : List Char) : Option String :=
  if auth.contains '@' || auth.contains '[' then none
  else if (auth.takeWhile (fun c => ¬ c = ':')).map asciiLower = [] then none
  else
    match auth.drop (auth.takeWhile (fun c => ¬ c = ':')).length with
    | [] => some ⟨(auth.takeWhile (fun c => ¬ c = ':')).map asciiLower⟩
    | _ :: ps =>
      if ps = [] then some ⟨(auth.takeWhile (fun c => ¬ c = ':')).map asciiLower⟩
      else if ps.all isDigitB then
        if 65535 < natOfDigits ps then none
        else if (scheme = "http" ∧ natOfDigits ps = 80) ∨
            (scheme = "https" ∧ natOfDigits ps = 443) then
          some ⟨(auth.takeWhile (fun c => ¬ c = ':')).map asciiLower⟩
        else
          some ⟨(auth.takeWhile (fun c => ¬ c = ':')).map asciiLower ++
            ':' :: natDigits (natOfDigits ps)⟩
      else none

/-- Split the part after the authority into normalized path segments,
query (with its `?`) and fragment (with its `#`). -/
def parseAfterAuthority (rest : List Char) : List String × String × String :=
  (normSegs (if rest.takeWhile (fun c => !isQueryFragDelim c) = [] then [""]
      else (splitC '/' ((rest.takeWhile (fun c => !isQueryFragDelim c)).drop 1)).map String.mk),
   ⟨(rest.drop (rest.takeWhile (fun c => !isQueryFragDelim c)).length).takeWhile
      (fun c => ¬ c = '#')⟩,
   ⟨(rest.drop (rest.takeWhile (fun c => !isQueryFragDelim c)).length).drop
      ((rest.drop (rest.takeWhile (fun c => !isQueryFragDelim c)).length).takeWhile
        (fun c => ¬ c = '#')).length⟩)

/-- Authority-plus-path part of an absolute `http(s)` URL, after the
`scheme://` prefix. -/
def parseHttpRest (scheme : String) (rest : List Char) : Option UrlRec :=
  match parseAuthority scheme (rest.takeWhile (fun c => !isAuthorityDelim c)),
      parseAfterAuthority (rest.drop (rest.takeWhile (fun c => !isAuthorityDelim c)).length) with
  | none, _ => none
  | some host, (segs, q, f) => some ⟨scheme, host, segs, q, f⟩

/-- Parse an absolute `http(s)` URL (the modelled fragment of
`new URL(s)`). -/
def parseHttpUrl (s : String) : Option UrlRec :=
  if isPrefixCI "https://".data s.data then parseHttpRest "https" (s.data.drop 8)
  else if isPrefixCI "http://".data s.data then parseHttpRest "http" (s.data.drop 7)
  else none

/-- `new URL(s).origin` for the modelled fragment. -/
def jsUrlOrigin (s : String) : Option String := (parseHttpUrl s).map UrlRec.origin

def isAsciiAlpha (c : Char) : Bool := decide (('A' ≤ c ∧ c ≤ 'Z') ∨ ('a' ≤ c ∧ c ≤ 'z'))

def isSchemeChar (c : Char) : Bool :=
  isAsciiAlpha c || decide (('0' ≤ c ∧ c ≤ '9') ∨ c = '+' ∨ c = '-' ∨ c = '.')

def schemeTail : List Char → Bool
  | [] => false
  | c :: rest => if c = ':' then true else if isSchemeChar c then schemeTail rest else false

/-- Whether a reference begins with a `scheme:` prefix. -/
def hasSchemePrefix : List Char → Bool
  | [] => false
  | c :: rest => isAsciiAlpha c && schemeTail rest

def startsTwoSlash : List Char → Bool
  | c :: c2 :: _ => c = '/' && c2 = '/'
  | _ => false

/-- WHATWG URL-string preprocessing applied before parsing: leading and
trailing C0 controls and spaces are trimmed, then every ASCII tab and
newline is removed from the remainder. -/
def isC0OrSpace (c : Char) : Bool := decide (c.toNat ≤ 32)

def isTabOrNewline (c : Char) : Bool := decide (c = '\t' ∨ c = '\n' ∨ c = '\r')

def urlPreprocess (l : List Char) : List Char :=
  (((l.dropWhile isC0OrSpace).reverse.dropWhile isC0OrSpace).reverse).filter
    (fun c => !isTabOrNewline c)

/-- Against a special-scheme (http/https) base, the WHATWG parser treats
a backslash like a forward slash in a relative reference. -/
def isUrlSlash (c : Char) : Bool := decide (c = '/' ∨ c = '\\')

/-- A reference whose preprocessed form begins with two URL slashes
re-parses the authority instead of staying on the base's origin. -/
def startsTwoUrlSlash : List Char → Bool
  | c :: c2 :: _ => isUrlSlash c && isUrlSlash c2
  | _ => false

/-- Serialization of a scheme-ful reference with a non-`http(s)` scheme;
modelled only for the `scheme://authority/path` shape, other shapes are
kept as written (opaque path). -/
def parseGenericAfterScheme (scheme : List Char) (rest : List Char) : Option String :=
  match rest with
  | '/' :: '/' :: rest2 =>
    let auth := rest2.takeWhile (fun c => !isAuthorityDelim c)
    if auth = [] then none
    else
      let after := rest2.drop auth.length
      if after = [] then some ⟨scheme ++ ':' :: '/' :: '/' :: auth⟩
      else
        let pqf := parseAfterAuthority after
        some (⟨scheme⟩ ++ "://" ++ ⟨auth⟩ ++ "/" ++ joinSegs pqf.1 ++ pqf.2.1 ++ pqf.2.2)
  | _ => some ⟨scheme ++ ':' :: rest⟩

/-- The modelled fragment of `new URL(rel, base).toString()`.  The model
covers references already in WHATWG-preprocessed form written with
forward slashes; `urlPreprocess` and `startsTwoUrlSlash` express the
input preprocessing and the backslash-as-slash classification that the
WHATWG parser applies against a special-scheme base, and the
origin-confinement statement below restricts itself to references whose
preprocessed form stays in the scheme-less, non-authority class, where
this model and the WHATWG parser take the same branch. -/
def jsNewURL (rel : String) (baseStr : String) : Option String :=
  match parseHttpUrl baseStr with
  | none => none
  | some b =>
    let l := rel.data
    if hasSchemePrefix l then
      let schemeRaw := l.takeWhile (fun c => ¬ c = ':')
      let scheme := schemeRaw.map asciiLower
      let rest := l.drop (schemeRaw.length + 1)
      if (⟨scheme⟩ : String) = "http" ∨ (⟨scheme⟩ : String) = "https" then
        if startsTwoSlash rest then (parseHttpUrl rel).map serializeUrl else none
      else parseGenericAfterScheme scheme rest
    else
      match l with
      | [] => none
      | c :: restl =>
        if c = '/' then
          if startsTwoSlash l then
            let rest2 := restl.drop 1
            let auth := rest2.takeWhile (fun x => !isAuthorityDelim x)
            match parseAuthority b.scheme auth with
            | none => none
            | some host =>
              let pqf := parseAfterAuthority (rest2.drop auth.length)
              some (serializeUrl ⟨b.scheme, host, pqf.1, pqf.2.1, pqf.2.2⟩)
          else
            let pqf := parseAfterAuthority l
            some (serializeUrl ⟨b.scheme, b.host, pqf.1, pqf.2.1, pqf.2.2⟩)
        else if c = '?' then
          let q := l.takeWhile (fun x => ¬ x = '#')
          let f := l.drop q.length
          some (serializeUrl ⟨b.scheme, b.host, b.pathSegs, ⟨q⟩, ⟨f⟩⟩)
        else if c = '#' then
          some (serializeUrl ⟨b.scheme, b.host, b.pathSegs, b.query, ⟨l⟩⟩)
        else
          let pathStr := l.takeWhile (fun x => !isQueryFragDelim x)
          let qf := l.drop pathStr.length
          let q := qf.takeWhile (fun x => ¬ x = '#')
          let f := qf.drop q.length
          let rSegs := (splitC '/' pathStr).map String.mk
          let segs := normSegs (b.pathSegs.dropLast ++ rSegs)
          some (serializeUrl ⟨b.scheme, b.host, segs, ⟨q⟩, ⟨f⟩⟩)

def firstMatchPos (pat : List Char) : List Char → Option Nat
  | [] => if pat.isPrefixOf [] then some 0 else none
  | c :: rest =>
    if pat.isPrefixOf (c :: rest) then some 0 else (firstMatchPos pat rest).map (· + 1)

/-- JavaScript `String.prototype.indexOf` (-1 when absent). -/
def jsIndexOfStr (s pat : String) : Int :=
  match firstMatchPos pat.data s.data with
  | some n => (n : Int)
  | none => -1

/-- JavaScript `String.prototype.lastIndexOf` for one character. -/
def jsLastIndexOfChar (c : Char) (s : String) : Int :=
  match s.data.reverse.findIdx? (fun x => x == c) with
  | some k => (s.data.length : Int) - 1 - (k : Int)
  | none => -1

/-- Source `getBaseUrl` (part_000, lines 35-48): origin plus the path with
its final segment removed; on parse failure, truncate at the last slash
when it lies after `://`, else append a slash. -/
def getBaseUrl (urlStr : String) : String :=
  if urlStr = "" then ""
  else
    match parseHttpUrl urlStr with
    | some u =>
      if u.pathname = "" ∨ u.pathname = "/" then u.origin ++ "/"
      else u.origin ++ jsJoin '/' (jsSplit '/' u.pathname).dropLast ++ "/"
    | none =>
      let li := jsLastIndexOfChar '/' urlStr
      let ci := jsIndexOfStr urlStr "://"
      if li > ci + 2 then ⟨urlStr.data.take (li + 1).toNat⟩ else urlStr ++ "/"

/-- Source `resolveUrl` (part_000, lines 50-75): absolute references pass
through, otherwise WHATWG resolution against the base; on resolution
failure, fall back to origin-prefixing for absolute-path references and
to plain concatenation otherwise (the source's `relStartsWithSlash`
branch of the concatenation is unreachable there because that case
returned inside the preceding `if`). -/
def resolveUrl (baseUrl relativeUrl : String) : String :=
  if baseUrl = "" ∨ relativeUrl = "" then relativeUrl
  else if httpRegexB relativeUrl then relativeUrl
  else
    match jsNewURL relativeUrl baseUrl with
    | some s => s
    | none =>
      if relativeUrl.data.head? = some '/' then
        match parseHttpUrl baseUrl with
        | some u => u.origin ++ relativeUrl
        | none => relativeUrl
      else if baseUrl.data.getLast? = some '/' then baseUrl ++ relativeUrl
      else ⟨baseUrl.data.take ((jsLastIndexOfChar '/' baseUrl) + 1).toNat⟩ ++ relativeUrl

theorem serializeUrl_eq (w : UrlRec) :
    serializeUrl w = w.origin ++ (w.pathname ++ (w.query ++ w.frag)) := by
  rw [serializeUrl, String.append_assoc, String.append_assoc]

/-- Resolution of a scheme-less, non-authority-relative reference keeps
the base's scheme and host. -/
theorem jsNewURL_no_scheme (b r : String) (u : UrlRec) (hb : parseHttpUrl b = some u)
    (hr : ¬ r = "") (hr3 : hasSchemePrefix r.data = false)
    (hr4 : startsTwoSlash r.data = false) :
    ∃ segs q f, jsNewURL r b = some (serializeUrl ⟨u.scheme, u.host, segs, q, f⟩) := by
  rw [jsNewURL, hb]
  dsimp only
  rw [if_neg (by rw [hr3]; exact Bool.false_ne_true)]
  cases hd : r.data with
  | nil => exact absurd ((string_eq_empty_iff r).mpr hd) hr
  | cons c restl =>
    rw [hd] at hr4
    dsimp only
    by_cases hc1 : c = '/'
    · rw [if_pos hc1]
      subst hc1
      rw [if_neg (by rw [hr4]; exact Bool.false_ne_true)]
      exact ⟨_, _, _, rfl⟩
    · rw [if_neg hc1]
      by_cases hc2 : c = '?'
      · rw [if_pos hc2]
        exact ⟨_, _, _, rfl⟩
      · rw [if_neg hc2]
        by_cases hc3 : c = '#'
        · rw [if_pos hc3]
          exact ⟨_, _, _, rfl⟩
        · rw [if_neg hc3]
          exact ⟨_, _, _, rfl⟩

theorem parseHttpUrl_empty_ne {u : UrlRec} (hb : parseHttpUrl "" = some u) : False := by
  rw [show parseHttpUrl "" = none from rfl] at hb
  exact Option.noConfusion hb

/-- C5 counterexample: for the base `https://a.com/` (ending in `/`,
parseable) and the non-empty reference `//evil.com/x` (which does not
match `^https?://`), `resolveUrl` returns `https://evil.com/x`, which
does not start with the base's origin `https://a.com`. -/
theorem c5_counterexample :
    (parseHttpUrl "https://a.com/").isSome = true ∧
    ("https://a.com/" : String).data.getLast? = some '/' ∧
    ¬ ("//evil.com/x" : String) = "" ∧
    httpRegexB "//evil.com/x" = false ∧
    jsUrlOrigin "https://a.com/" = some "https://a.com" ∧
    resolveUrl "https://a.com/" "//evil.com/x" = "https://evil.com/x" ∧
    ("https://a.com" : String).data.isPrefixOf ("https://evil.com/x" : String).data = false := by
  decide

theorem schemeTail_spec : ∀ {l : List Char}, schemeTail l = true →
    ∃ pre post, l = pre ++ ':' :: post ∧ ∀ x ∈ pre, isSchemeChar x = true := by
  intro l
  induction l with
  | nil => intro h; exact absurd h (by decide)
  | cons c rest ih =>
    intro h
    rw [schemeTail] at h
    by_cases hc : c = ':'
    · subst hc
      exact ⟨[], rest, rfl, fun x hx => absurd hx (List.not_mem_nil x)⟩
    · rw [if_neg hc] at h
      by_cases hs : isSchemeChar c = true
      · rw [if_pos hs] at h
        obtain ⟨pre, post, heq, hpre⟩ := ih h
        refine ⟨c :: pre, post, by rw [heq]; rfl, ?_⟩
        intro x hx
        rw [List.mem_cons] at hx
        rcases hx with hx | hx
        · subst hx; exact hs
        · exact hpre x hx
      · rw [if_neg hs] at h
        exact absurd h (by decide)

theorem schemeTail_append (pre t : List Char)
    (hpre : ∀ x ∈ pre, isSchemeChar x = true) :
    schemeTail (pre ++ ':' :: t) = true := by
  induction pre with
  | nil => rw [List.nil_append, schemeTail, if_pos rfl]
  | cons c cs ih =>
    rw [List.cons_append, schemeTail]
    by_cases hc : c = ':'
    · rw [if_pos hc]
    · rw [if_neg hc, if_pos (hpre c (List.mem_cons_self c cs))]
      exact ih (fun x hx => hpre x (List.mem_cons_of_mem c hx))

/-- A prefix whose first and last characters are not C0 controls or
spaces and whose characters are not tabs or newlines survives WHATWG
preprocessing at the front of the string. -/
theorem urlPreprocess_prefix (a z : Char) (m s : List Char)
    (ha : isC0OrSpace a = false) (hz : isC0OrSpace z = false)
    (htn : ∀ x ∈ (a :: m) ++ [z], isTabOrNewline x = false) :
    ∃ t, urlPreprocess (((a :: m) ++ [z]) ++ s) = ((a :: m) ++ [z]) ++ t := by
  rw [urlPreprocess]
  have h1 : (((a :: m) ++ [z]) ++ s).dropWhile isC0OrSpace = ((a :: m) ++ [z]) ++ s := by
    rw [List.append_assoc, List.cons_append, List.dropWhile_cons,
        if_neg (by rw [ha]; exact Bool.false_ne_true)]
  rw [h1]
  have hPrev : ((a :: m) ++ [z]).reverse = z :: (m.reverse ++ [a]) := by
    rw [List.reverse_append, show ([z] : List Char).reverse = [z] from rfl,
        List.reverse_cons, List.singleton_append]
  have h2 : ((((a :: m) ++ [z]) ++ s)).reverse = s.reverse ++ (z :: (m.reverse ++ [a])) := by
    rw [List.reverse_append, hPrev]
  have h3 : (z :: (m.reverse ++ [a])).reverse = (a :: m) ++ [z] := by
    rw [List.reverse_cons, List.reverse_append, List.reverse_reverse]
    rfl
  have hkeep : ∀ x ∈ (a :: m) ++ [z], (!isTabOrNewline x) = true := by
    intro x hx
    rw [htn x hx]
    rfl
  rw [h2, List.dropWhile_append]
  by_cases hem : (s.reverse.dropWhile isC0OrSpace).isEmpty = true
  · rw [if_pos hem, List.dropWhile_cons, if_neg (by rw [hz]; exact Bool.false_ne_true), h3]
    refine ⟨[], ?_⟩
    rw [List.append_nil]
    exact List.filter_eq_self.mpr hkeep
  · rw [if_neg hem, List.reverse_append, h3, List.filter_append]
    refine ⟨(s.reverse.dropWhile isC0OrSpace).reverse.filter (fun c => !isTabOrNewline c), ?_⟩
    congr 1
    exact List.filter_eq_self.mpr hkeep

theorem isSchemeChar_not_tn {c : Char} (h : isSchemeChar c = true) :
    isTabOrNewline c = false := by
  cases htn : isTabOrNewline c with
  | false => rfl
  | true =>
    rw [isTabOrNewline, decide_eq_true_iff] at htn
    rcases htn with h1 | h1 | h1 <;> (subst h1; exact absurd h (by decide))

theorem isAsciiAlpha_not_c0 {c : Char} (h : isAsciiAlpha c = true) :
    isC0OrSpace c = false := by
  rw [isAsciiAlpha, decide_eq_true_iff] at h
  rw [isC0OrSpace]
  refine decide_eq_false ?_
  intro hle
  have h2 : ('A').toNat = 65 := rfl
  have h3 : ('a').toNat = 97 := rfl
  rcases h with ⟨h1, _⟩ | ⟨h1, _⟩
  · have h4 : ('A').toNat ≤ c.toNat := h1
    omega
  · have h4 : ('a').toNat ≤ c.toNat := h1
    omega

/-- A `scheme:` prefix survives WHATWG preprocessing: its head is an
ASCII letter (not trimmed), its characters are scheme characters or the
colon (never tabs or newlines), and trailing trimming stops at the
colon or later. -/
theorem hasSchemePrefix_urlPreprocess {l : List Char} (h : hasSchemePrefix l = true) :
    hasSchemePrefix (urlPreprocess l) = true := by
  cases l with
  | nil => exact absurd h (by decide)
  | cons c rest =>
    rw [hasSchemePrefix, Bool.and_eq_true] at h
    obtain ⟨ha, hst⟩ := h
    obtain ⟨pre, post, heq, hpre⟩ := schemeTail_spec hst
    have hshape : ((c :: pre) ++ [':']) ++ post = c :: rest := by
      rw [heq, List.append_assoc, List.singleton_append, List.cons_append]
    have htn : ∀ x ∈ (c :: pre) ++ [':'], isTabOrNewline x = false := by
      intro x hx
      rw [List.mem_append, List.mem_cons, List.mem_singleton] at hx
      rcases hx with (hx | hx) | hx
      · subst hx
        refine isSchemeChar_not_tn ?_
        rw [isSchemeChar, ha]
        rfl
      · exact isSchemeChar_not_tn (hpre x hx)
      · subst hx
        decide
    obtain ⟨t, ht⟩ := urlPreprocess_prefix c ':' pre post (isAsciiAlpha_not_c0 ha)
      (by decide) htn
    rw [hshape] at ht
    rw [ht, List.append_assoc, List.cons_append, hasSchemePrefix, Bool.and_eq_true]
    refine ⟨ha, ?_⟩
    exact schemeTail_append pre t hpre

/-- A leading `//` survives WHATWG preprocessing as two URL slashes. -/
theorem startsTwoSlash_urlPreprocess {l : List Char} (h : startsTwoSlash l = true) :
    startsTwoUrlSlash (urlPreprocess l) = true := by
  cases l with
  | nil => exact absurd h (by decide)
  | cons c rest =>
    cases rest with
    | nil => exact absurd h (by simp [startsTwoSlash])
    | cons c2 rest2 =>
      rw [startsTwoSlash, Bool.and_eq_true, decide_eq_true_iff, decide_eq_true_iff] at h
      obtain ⟨hc, hc2⟩ := h
      subst hc
      subst hc2
      obtain ⟨t, ht⟩ := urlPreprocess_prefix '/' '/' [] rest2 (by decide) (by decide)
        (by decide)
      rw [show (('/' :: []) ++ ['/']) ++ rest2 = '/' :: '/' :: rest2 from rfl] at ht
      rw [ht, show (('/' :: []) ++ ['/']) ++ t = '/' :: '/' :: t from rfl,
          startsTwoUrlSlash]
      decide

/-- Two authority-reaching shapes that do not literally start with `//`:
a double backslash, and a `//` hidden by an embedded tab.  Both begin
with two URL slashes once preprocessed, so both are excluded by the
hypotheses of the origin-confinement statement. -/
theorem startsTwoUrlSlash_hidden_examples :
    startsTwoUrlSlash (urlPreprocess ("\\\\evil.com\\x" : String).data) = true ∧
    startsTwoUrlSlash (urlPreprocess ("/\t/evil.com/x" : String).data) = true := by
  decide

/-- C5 amended: for every base URL ending in `/` that parses as an
absolute HTTP/HTTPS URL and every non-empty reference that does not
match `^https?://` and whose WHATWG-preprocessed form (ASCII tab and
newline removed, leading and trailing C0 controls and spaces trimmed)
carries no `scheme:` prefix and does not begin with two URL slashes
(`/` or `\\`, which the WHATWG parser treats alike against an http(s)
base), the resolved URL starts with the base's origin. -/
theorem c5_origin_prefix (b r : String) (u : UrlRec) (hb : parseHttpUrl b = some u)
    (_hslash : b.data.getLast? = some '/') (hr : ¬ r = "")
    (hr2 : httpRegexB r = false)
    (hr3 : hasSchemePrefix (urlPreprocess r.data) = false)
    (hr4 : startsTwoUrlSlash (urlPreprocess r.data) = false) :
    ∃ t : String, resolveUrl b r = u.origin ++ t := by
  have hr3r : hasSchemePrefix r.data = false := by
    cases hx : hasSchemePrefix r.data with
    | false => rfl
    | true =>
      have h2 := hasSchemePrefix_urlPreprocess hx
      rw [h2] at hr3
      exact Bool.noConfusion hr3
  have hr4r : startsTwoSlash r.data = false := by
    cases hx : startsTwoSlash r.data with
    | false => rfl
    | true =>
      have h2 := startsTwoSlash_urlPreprocess hx
      rw [h2] at hr4
      exact Bool.noConfusion hr4
  have hbne : ¬ b = "" := by
    intro h
    rw [h] at hb
    exact (parseHttpUrl_empty_ne hb).elim
  obtain ⟨segs, q, f, hnew⟩ := jsNewURL_no_scheme b r u hb hr hr3r hr4r
  rw [resolveUrl, if_neg (by push_neg; exact ⟨hbne, hr⟩),
      if_neg (by rw [hr2]; exact Bool.false_ne_true), hnew]
  refine ⟨UrlRec.pathname ⟨u.scheme, u.host, segs, q, f⟩ ++ (q ++ f), ?_⟩
  rw [serializeUrl_eq]
  rfl

/-- Witness for C5 at `base = https://h/p/`, `ref = seg.ts`. -/
theorem c5_origin_prefix_witness :
    parseHttpUrl "https://h/p/" = some ⟨"https", "h", ["p", ""], "", ""⟩ ∧
    ∃ t : String, resolveUrl "https://h/p/" "seg.ts" =
      UrlRec.origin ⟨"https", "h", ["p", ""], "", ""⟩ ++ t :=
  ⟨by decide, c5_origin_prefix "https://h/p/" "seg.ts" ⟨"https", "h", ["p", ""], "", ""⟩
      (by decide) (by decide) (by decide) (by decide) (by decide) (by decide)⟩

/-! ### Playlist handling -/

def isJsSpace (c : Char) : Bool := decide (c = ' ' ∨ c = '\t' ∨ c = '\n' ∨ c = '\r')

/-- JavaScript `String.prototype.trim` (the source only ever meets the
four ASCII whitespace characters). -/
def jsTrim (s : String) : String :=
  ⟨((s.data.dropWhile isJsSpace).reverse.dropWhile isJsSpace).reverse⟩

def jsStartsWith (pat s : String) : Bool := pat.data.isPrefixOf s.data

def jsEndsWith (pat s : String) : Bool := pat.data.isSuffixOf s.data

def inclL (pat : List Char) : List Char → Bool
  | [] => pat.isPrefixOf []
  | c :: rest => pat.isPrefixOf (c :: rest) || inclL pat rest

/-- JavaScript `String.prototype.includes`. -/
def jsIncludes (s pat : String) : Bool := inclL pat.data s.data

/-- Source `isM3u8Content` (part_000, lines 120-125). -/
def isM3u8Content (content contentType : String) : Bool :=
  if contentType != "" &&
      (jsIncludes contentType "application/vnd.apple.mpegurl" ||
       jsIncludes contentType "application/x-mpegurl" ||
       jsIncludes contentType "audio/mpegurl") then true
  else content != "" && jsStartsWith "#EXTM3U" (jsTrim content)

/-- The master-playlist test of `processM3u8Content` (part_000, line 179). -/
def hasMasterMarkers (content : String) : Bool :=
  jsIncludes content "#EXT-X-STREAM-INF" || jsIncludes content "#EXT-X-MEDIA:"

inductive PlaylistClass where
  | notPlaylist
  | mediaPlaylist
  | masterPlaylist
deriving DecidableEq

/-- The classification implied by the handler's `isM3u8Content` gate
(part_000, line 311) followed by the master/media dispatch of
`processM3u8Content` (part_000, lines 177-185). -/
def classify (content contentType : String) : PlaylistClass :=
  if isM3u8Content content contentType then
    if hasMasterMarkers content then .masterPlaylist else .mediaPlaylist
  else .notPlaylist

/-- First-position match of the regex `URI="([^"]+)"`: the `URI="` prefix,
a non-empty run without `"`, and the closing quote. -/
def matchUriHere (l : List Char) : Option (List Char × List Char) :=
  if "URI=\"".data.isPrefixOf l then
    if (l.drop 5).takeWhile (fun c => ¬ c = '"') = [] then none
    else
      match (l.drop 5).drop ((l.drop 5).takeWhile (fun c => ¬ c = '"')).length with
      | '"' :: tail => some ((l.drop 5).takeWhile (fun c => ¬ c = '"'), tail)
      | _ => none
  else none

/-- Leftmost match of `URI="([^"]+)"` in a line: prefix before the match,
the captured group, and the suffix after the closing quote. -/
def findUriAttr : List Char → Option (List Char × List Char × List Char)
  | [] => none
  | c :: rest =>
    match matchUriHere (c :: rest) with
    | some (uri, after) => some ([], uri, after)
    | none =>
      match findUriAttr rest with
      | some (p, uri, after) => some (c :: p, uri, after)
      | none => none

/-- Source `processKeyLine` (part_000, lines 127-133): rewrite the first
`URI="…"` attribute through resolve-then-proxy. -/
def processKeyLine (line baseUrl : String) : String :=
  match findUriAttr line.data with
  | none => line
  | some (p, uri, after) =>
    ⟨p⟩ ++ "URI=\"" ++ rewriteUrlToProxy (resolveUrl baseUrl ⟨uri⟩) ++ "\"" ++ ⟨after⟩

/-- Source `processMapLine` (part_000, lines 135-141); same body as
`processKeyLine`. -/
def processMapLine (line baseUrl : String) : String :=
  match findUriAttr line.data with
  | none => line
  | some (p, uri, after) =>
    ⟨p⟩ ++ "URI=\"" ++ rewriteUrlToProxy (resolveUrl baseUrl ⟨uri⟩) ++ "\"" ++ ⟨after⟩

/-- The per-line dispatch of `processMediaPlaylist` (part_000,
lines 158-172), applied to an already trimmed non-empty line. -/
def rewriteMediaLine (baseUrl line : String) : String :=
  if jsStartsWith "#EXT-X-KEY" line then processKeyLine line baseUrl
  else if jsStartsWith "#EXT-X-MAP" line then processMapLine line baseUrl
  else if jsStartsWith "#EXTINF" line then line
  else if !(jsStartsWith "#" line) then rewriteUrlToProxy (resolveUrl baseUrl line)
  else line

/-- Source `processMediaPlaylist` (part_000, lines 143-175): split on
newlines, trim, keep a final empty line, drop other empty lines, rewrite
key/map/segment lines, pass all other tags through. -/
def processMediaPlaylist (url content : String) : String :=
  let baseUrl := getBaseUrl url
  let lines := (splitC '\n' content.data).map String.mk
  let n := lines.length
  jsJoin '\n' (lines.enum.filterMap fun pr =>
    let line := jsTrim pr.2
    if line = "" then (if pr.1 = n - 1 then some line else none)
    else some (rewriteMediaLine baseUrl line))

/-- C7 counterexample: a body that contains `#EXT-X-STREAM-INF` but whose
trimmed form does not start with `#EXTM3U`, served with a non-HLS
content type, is classified `NotPlaylist`, not `MasterPlaylist`. -/
theorem c7_counterexample :
    jsIncludes "#EXT-X-STREAM-INF:BANDWIDTH=1\nv.m3u8" "#EXT-X-STREAM-INF" = true ∧
    classify "#EXT-X-STREAM-INF:BANDWIDTH=1\nv.m3u8" "text/html" = .notPlaylist := by
  decide

/-- C7 amended: a body containing `#EXT-X-STREAM-INF` that passes the
`isM3u8Content` gate (recognized HLS content type, or trimmed body
starting with `#EXTM3U`) is always classified as a master playlist. -/
theorem c7_master_classification (content contentType : String)
    (hgate : isM3u8Content content contentType = true)
    (hinf : jsIncludes content "#EXT-X-STREAM-INF" = true) :
    classify content contentType = .masterPlaylist := by
  rw [classify, if_pos hgate, hasMasterMarkers, hinf]
  rw [Bool.true_or]
  rfl

/-- Witness for C7 on a gated master playlist body. -/
theorem c7_master_classification_witness :
    isM3u8Content "#EXTM3U\n#EXT-X-STREAM-INF:BANDWIDTH=1\nv.m3u8" "" = true ∧
    jsIncludes "#EXTM3U\n#EXT-X-STREAM-INF:BANDWIDTH=1\nv.m3u8" "#EXT-X-STREAM-INF" = true ∧
    classify "#EXTM3U\n#EXT-X-STREAM-INF:BANDWIDTH=1\nv.m3u8" "" = .masterPlaylist :=
  ⟨by decide, by decide,
    c7_master_classification _ _ (by decide) (by decide)⟩



theorem charLe_iff (a b : Char) : a ≤ b ↔ a.toNat ≤ b.toNat :=
  ⟨fun h => h, fun h => h⟩

theorem charEq_iff (a b : Char) : a = b ↔ a.toNat = b.toNat := by
  constructor
  · intro h
    rw [h]
  · intro h
    exact Char.eq_of_val_eq (UInt32.toNat.inj h)

theorem asciiLower_cases (c : Char) :
    asciiLower c = c ∨
      (65 ≤ c.toNat ∧ c.toNat ≤ 90 ∧ (asciiLower c).toNat = c.toNat + 32) := by
  rw [asciiLower]
  by_cases h : 'A' ≤ c ∧ c ≤ 'Z'
  · right
    have h1 : 65 ≤ c.toNat := (charLe_iff 'A' c).mp h.1
    have h2 : c.toNat ≤ 90 := (charLe_iff c 'Z').mp h.2
    refine ⟨h1, h2, ?_⟩
    rw [if_pos h]
    exact charToNat_ofNat (Or.inl (by omega))
  · left
    rw [if_neg h]

theorem asciiLower_idem (c : Char) : asciiLower (asciiLower c) = asciiLower c := by
  rcases asciiLower_cases c with h | ⟨h1, h2, h3⟩
  · rw [h]
    exact h
  · have hno : ¬ ('A' ≤ asciiLower c ∧ asciiLower c ≤ 'Z') := by
      intro hc
      have h4 : (asciiLower c).toNat ≤ 90 := (charLe_iff (asciiLower c) 'Z').mp hc.2
      omega
    nth_rewrite 1 [asciiLower]
    rw [if_neg hno]

theorem asciiLower_shift_range {c : Char} (h : ¬ asciiLower c = c) :
    97 ≤ (asciiLower c).toNat ∧ (asciiLower c).toNat ≤ 122 := by
  rcases asciiLower_cases c with h0 | ⟨h1, h2, h3⟩
  · exact absurd h0 h
  · omega

theorem asciiLower_eq_special {c d : Char} (hd : d.toNat < 97 ∨ 122 < d.toNat)
    (h : asciiLower c = d) : c = d := by
  by_cases hc : asciiLower c = c
  · rw [← hc, h]
  · have := asciiLower_shift_range hc
    rw [h] at this
    omega

theorem isAuthorityDelim_iff (c : Char) :
    isAuthorityDelim c = true ↔ (c.toNat = 47 ∨ c.toNat = 63 ∨ c.toNat = 35) := by
  rw [isAuthorityDelim, decide_eq_true_iff]
  constructor
  · intro h
    rcases h with h | h | h <;> rw [h] <;> simp [Char.toNat]
  · intro h
    rcases h with h | h | h
    · exact Or.inl ((charEq_iff c '/').mpr h)
    · exact Or.inr (Or.inl ((charEq_iff c '?').mpr h))
    · exact Or.inr (Or.inr ((charEq_iff c '#').mpr h))

theorem asciiLower_not_delim {c : Char} (h : isAuthorityDelim c = false) :
    isAuthorityDelim (asciiLower c) = false := by
  by_cases hc : asciiLower c = c
  · rw [hc, h]
  · have hr := asciiLower_shift_range hc
    rw [Bool.eq_false_iff]
    intro hd
    have := (isAuthorityDelim_iff (asciiLower c)).mp hd
    omega

theorem asciiLower_ne_colon {c : Char} (h : ¬ c = ':') : ¬ asciiLower c = ':' := by
  intro hc
  exact h (asciiLower_eq_special (by left; decide) hc)

theorem asciiLower_ne_at {c : Char} (h : ¬ c = '@') : ¬ asciiLower c = '@' := by
  intro hc
  exact h (asciiLower_eq_special (by left; decide) hc)

theorem asciiLower_ne_bracket {c : Char} (h : ¬ c = '[') : ¬ asciiLower c = '[' := by
  intro hc
  exact h (asciiLower_eq_special (by left; decide) hc)

theorem digitChar_toNat {n : Nat} (h : n < 10) : (digitChar n).toNat = 48 + n :=
  charToNat_ofNat (Or.inl (by omega))

theorem isDigitB_iff (c : Char) :
    isDigitB c = true ↔ (48 ≤ c.toNat ∧ c.toNat ≤ 57) := by
  rw [isDigitB, decide_eq_true_iff]
  constructor
  · intro h
    exact ⟨(charLe_iff '0' c).mp h.1, (charLe_iff c '9').mp h.2⟩
  · intro h
    exact ⟨(charLe_iff '0' c).mpr h.1, (charLe_iff c '9').mpr h.2⟩

theorem natOfDigits_append (xs : List Char) (d : Char) :
    natOfDigits (xs ++ [d]) = 10 * natOfDigits xs + (d.toNat - 48) := by
  rw [natOfDigits, natOfDigits, List.foldl_append]
  rfl

theorem digitsAux_spec : ∀ fuel n, n < fuel →
    (∀ c ∈ digitsAux fuel n, isDigitB c = true) ∧ digitsAux fuel n ≠ [] ∧
      natOfDigits (digitsAux fuel n) = n := by
  intro fuel
  induction fuel with
  | zero => intro n h; omega
  | succ f ih =>
    intro n hn
    rw [digitsAux]
    by_cases h10 : n < 10
    · rw [if_pos h10]
      refine ⟨?_, by simp, ?_⟩
      · intro c hc
        simp at hc
        rw [hc, isDigitB_iff, digitChar_toNat h10]
        omega
      · rw [show ([digitChar n] : List Char) = [] ++ [digitChar n] by simp,
            natOfDigits_append, digitChar_toNat h10]
        rw [show natOfDigits [] = 0 from rfl]
        omega
    · rw [if_neg h10]
      have hdiv : n / 10 < f := by
        have := Nat.div_lt_self (by omega : 0 < n) (by omega : 1 < 10)
        omega
      obtain ⟨ihd, ihne, ihval⟩ := ih (n / 10) hdiv
      refine ⟨?_, by simp, ?_⟩
      · intro c hc
        rw [List.mem_append] at hc
        rcases hc with hc | hc
        · exact ihd c hc
        · simp at hc
          rw [hc, isDigitB_iff, digitChar_toNat (by omega)]
          omega
      · rw [natOfDigits_append, ihval, digitChar_toNat (by omega)]
        omega

theorem natDigits_spec (n : Nat) :
    (∀ c ∈ natDigits n, isDigitB c = true) ∧ natDigits n ≠ [] ∧
      natOfDigits (natDigits n) = n :=
  digitsAux_spec (n + 1) n (by omega)



theorem takeWhile_append_stop {α : Type} {p : α → Bool} {A : List α} {b : α} (B : List α)
    (hA : ∀ a ∈ A, p a = true) (hb : p b = false) :
    (A ++ b :: B).takeWhile p = A := by
  induction A with
  | nil => simp [List.takeWhile_cons, hb]
  | cons x xs ih =>
    rw [List.cons_append, List.takeWhile_cons, hA x (by simp), if_pos rfl]
    rw [ih (fun a ha => hA a (by simp [ha]))]

theorem contains_false_not_mem {l : List Char} {a : Char} (h : l.contains a = false) :
    ¬ a ∈ l := by
  intro hm
  have hc : l.contains a = true := List.elem_eq_true_of_mem hm
  rw [hc] at h
  exact Bool.noConfusion h

theorem not_mem_contains_false {l : List Char} {a : Char} (h : ¬ a ∈ l) :
    l.contains a = false := by
  rw [Bool.eq_false_iff]
  intro hc
  exact h (List.mem_of_elem_eq_true hc)



theorem isAuthorityDelim_colon : isAuthorityDelim ':' = false := by decide

theorem isAuthorityDelim_digit {c : Char} (h : isDigitB c = true) :
    isAuthorityDelim c = false := by
  rw [Bool.eq_false_iff]
  intro hd
  have h1 := (isDigitB_iff c).mp h
  have h2 := (isAuthorityDelim_iff c).mp hd
  omega

theorem parseAuthority_facts {scheme : String} {auth : List Char} {hs : String}
    (hgood : ∀ c ∈ auth, isAuthorityDelim c = false)
    (hp : parseAuthority scheme auth = some hs) :
    hs.data ≠ [] ∧ (∀ c ∈ hs.data, isAuthorityDelim c = false) ∧
      parseAuthority scheme hs.data = some hs := by
  rw [parseAuthority] at hp
  split at hp
  · exact Option.noConfusion hp
  rename_i hat
  rw [Bool.or_eq_true] at hat
  push_neg at hat
  have hat1 := Bool.eq_false_iff.mpr hat.1
  have hat2 := Bool.eq_false_iff.mpr hat.2
  have hnoat : ¬ '@' ∈ auth := contains_false_not_mem hat1
  have hnobr : ¬ '[' ∈ auth := contains_false_not_mem hat2
  -- facts about the lowered host
  have hraw_nc : ∀ c ∈ auth.takeWhile (fun c => ¬ c = ':'), ¬ c = ':' := by
    intro c hc
    simpa using List.mem_takeWhile_imp hc
  have hraw_mem : ∀ c ∈ auth.takeWhile (fun c => ¬ c = ':'), c ∈ auth := by
    intro c hc
    exact (List.takeWhile_sublist _).subset hc
  have hhost_facts : ∀ c ∈ (auth.takeWhile (fun c => ¬ c = ':')).map asciiLower,
      isAuthorityDelim c = false ∧ ¬ c = ':' ∧ ¬ c = '@' ∧ ¬ c = '[' := by
    intro c hc
    rw [List.mem_map] at hc
    obtain ⟨c0, hc0, hlow⟩ := hc
    subst hlow
    refine ⟨asciiLower_not_delim (hgood c0 (hraw_mem c0 hc0)), asciiLower_ne_colon (hraw_nc c0 hc0), ?_, ?_⟩
    · exact asciiLower_ne_at (fun he => hnoat (he ▸ hraw_mem c0 hc0))
    · exact asciiLower_ne_bracket (fun he => hnobr (he ▸ hraw_mem c0 hc0))
  have hidem : List.map asciiLower (List.map asciiLower (auth.takeWhile (fun c => ¬ c = ':'))) =
      List.map asciiLower (auth.takeWhile (fun c => ¬ c = ':')) := by
    rw [List.map_map]
    exact List.map_congr_left (fun a _ => asciiLower_idem a)
  split at hp
  · exact Option.noConfusion hp
  rename_i hhne
  -- reusable: parseAuthority applied to the bare host is the identity
  have hbare : parseAuthority scheme ((auth.takeWhile (fun c => ¬ c = ':')).map asciiLower) =
      some ⟨(auth.takeWhile (fun c => ¬ c = ':')).map asciiLower⟩ := by
    rw [parseAuthority]
    rw [if_neg ?hc1]
    case hc1 =>
      rw [Bool.or_eq_true]
      push_neg
      constructor
      · exact fun hc => (hhost_facts _ (List.mem_of_elem_eq_true hc)).2.2.1 rfl
      · exact fun hc => (hhost_facts _ (List.mem_of_elem_eq_true hc)).2.2.2 rfl
    rw [List.takeWhile_eq_self_iff.mpr
        (fun a ha => decide_eq_true ((hhost_facts a ha).2.1))]
    rw [hidem]
    rw [if_neg hhne]
    rw [List.drop_length]
  split at hp
  · -- no port part at all
    injection hp with hp2
    subst hp2
    exact ⟨hhne, fun c hc => (hhost_facts c hc).1, hbare⟩
  rename_i pc ps hdrop
  split at hp
  · -- "host:" with empty port
    injection hp with hp2
    subst hp2
    exact ⟨hhne, fun c hc => (hhost_facts c hc).1, hbare⟩
  rename_i hpsne
  split at hp
  case isFalse => exact Option.noConfusion hp
  rename_i hdig
  split at hp
  · exact Option.noConfusion hp
  rename_i hple
  split at hp
  · -- default port dropped
    injection hp with hp2
    subst hp2
    exact ⟨hhne, fun c hc => (hhost_facts c hc).1, hbare⟩
  · -- explicit port kept
    rename_i hdef
    injection hp with hp2
    subst hp2
    obtain ⟨hdigs, hdne, hdval⟩ := natDigits_spec (natOfDigits ps)
    refine ⟨by simp, ?_, ?_⟩
    · intro c hc
      show isAuthorityDelim c = false
      have hc2 : c ∈ (auth.takeWhile (fun c => ¬ c = ':')).map asciiLower ++
          ':' :: natDigits (natOfDigits ps) := hc
      rw [List.mem_append] at hc2
      rcases hc2 with hc2 | hc2
      · exact (hhost_facts c hc2).1
      · rw [List.mem_cons] at hc2
        rcases hc2 with hc2 | hc2
        · rw [hc2]
          exact isAuthorityDelim_colon
        · exact isAuthorityDelim_digit (hdigs c hc2)
    · rw [parseAuthority]
      rw [if_neg ?hc2]
      case hc2 =>
        rw [Bool.or_eq_true]
        push_neg
        constructor
        · intro hc
          have hm := List.mem_of_elem_eq_true hc
          show False
          rw [show (String.mk ((auth.takeWhile (fun c => ¬ c = ':')).map asciiLower ++
              ':' :: natDigits (natOfDigits ps))).data =
              (auth.takeWhile (fun c => ¬ c = ':')).map asciiLower ++
              ':' :: natDigits (natOfDigits ps) from rfl] at hm
          rw [List.mem_append] at hm
          rcases hm with hm | hm
          · exact (hhost_facts _ hm).2.2.1 rfl
          · rw [List.mem_cons] at hm
            rcases hm with hm | hm
            · exact absurd hm.symm (by decide)
            · have := (isDigitB_iff '@').mp (hdigs _ hm)
              revert this
              decide
        · intro hc
          have hm := List.mem_of_elem_eq_true hc
          show False
          rw [show (String.mk ((auth.takeWhile (fun c => ¬ c = ':')).map asciiLower ++
              ':' :: natDigits (natOfDigits ps))).data =
              (auth.takeWhile (fun c => ¬ c = ':')).map asciiLower ++
              ':' :: natDigits (natOfDigits ps) from rfl] at hm
          rw [List.mem_append] at hm
          rcases hm with hm | hm
          · exact (hhost_facts _ hm).2.2.2 rfl
          · rw [List.mem_cons] at hm
            rcases hm with hm | hm
            · exact absurd hm.symm (by decide)
            · have := (isDigitB_iff '[').mp (hdigs _ hm)
              revert this
              decide
      rw [show (String.mk ((auth.takeWhile (fun c => ¬ c = ':')).map asciiLower ++
          ':' :: natDigits (natOfDigits ps))).data =
          (auth.takeWhile (fun c => ¬ c = ':')).map asciiLower ++
          ':' :: natDigits (natOfDigits ps) from rfl]
      rw [takeWhile_append_stop _ (fun a ha => decide_eq_true ((hhost_facts a ha).2.1))
          (by decide)]
      rw [hidem, if_neg hhne]
      rw [List.drop_left]
      dsimp only
      rw [if_neg hdne, if_pos (List.all_eq_true.mpr hdigs), hdval]
      rw [if_neg hple, if_neg hdef]




theorem string_ext_data {a b : String} (h : a.data = b.data) : a = b := by
  cases a
  cases b
  exact congrArg String.mk h

theorem bool_not_true_of_false {b : Bool} (h : b = false) : (!b) = true := by
  simp [h]

theorem parseHttpRest_facts {scheme : String} {rest : List Char} {u : UrlRec}
    (h : parseHttpRest scheme rest = some u) :
    u.scheme = scheme ∧ u.host.data ≠ [] ∧
      (∀ c ∈ u.host.data, isAuthorityDelim c = false) ∧
      parseAuthority u.scheme u.host.data = some u.host := by
  rw [parseHttpRest] at h
  split at h
  · exact Option.noConfusion h
  rename_i host segs q f hpa hpq
  injection h with h2
  subst h2
  have hgood : ∀ c ∈ rest.takeWhile (fun c => !isAuthorityDelim c),
      isAuthorityDelim c = false := by
    intro c hc
    have h1 := List.mem_takeWhile_imp hc
    rwa [Bool.not_eq_true'] at h1
  obtain ⟨hne, hdelim, hidem⟩ := parseAuthority_facts hgood hpa
  exact ⟨rfl, hne, hdelim, hidem⟩

theorem parseHttpUrl_facts {s : String} {u : UrlRec} (h : parseHttpUrl s = some u) :
    (u.scheme = "http" ∨ u.scheme = "https") ∧ u.host.data ≠ [] ∧
      (∀ c ∈ u.host.data, isAuthorityDelim c = false) ∧
      parseAuthority u.scheme u.host.data = some u.host := by
  rw [parseHttpUrl] at h
  split at h
  · obtain ⟨hs, rest⟩ := parseHttpRest_facts h
    exact ⟨Or.inr hs, rest⟩
  split at h
  · obtain ⟨hs, rest⟩ := parseHttpRest_facts h
    exact ⟨Or.inl hs, rest⟩
  · exact Option.noConfusion h

theorem isPrefixCI_append {pat X : List Char} (hfix : pat.map asciiLower = pat) :
    isPrefixCI pat (pat ++ X) = true := by
  rw [isPrefixCI, List.map_append, hfix]
  exact List.isPrefixOf_iff_prefix.mpr (List.prefix_append _ _)

theorem map_asciiLower_http : "http://".data.map asciiLower = "http://".data := by decide

theorem map_asciiLower_https : "https://".data.map asciiLower = "https://".data := by decide

theorem isPrefixCI_https_http (X : List Char) :
    isPrefixCI "https://".data ("http://".data ++ X) = false := by
  rw [isPrefixCI, List.map_append, map_asciiLower_http]
  show List.isPrefixOf ['h','t','t','p','s',':','/','/']
    ('h' :: 't' :: 't' :: 'p' :: ':' :: '/' :: '/' :: (X.map asciiLower)) = false
  simp [List.isPrefixOf]

/-- Reparsing `scheme://host` followed by a slash-led remainder recovers
the same scheme and host. -/
theorem parseHttpUrl_origin_slash (scheme host : String) (P : List Char)
    (hs : scheme = "http" ∨ scheme = "https")
    (hhost : parseAuthority scheme host.data = some host)
    (hne : host.data ≠ []) (hdelim : ∀ c ∈ host.data, isAuthorityDelim c = false)
    (P' : List Char) (hP : P = '/' :: P') :
    ∃ ub : UrlRec, parseHttpUrl ⟨scheme.data ++ "://".data ++ (host.data ++ P)⟩ = some ub ∧
      ub.scheme = scheme ∧ ub.host = host := by
  subst hP
  have hauth : (host.data ++ '/' :: P').takeWhile (fun c => !isAuthorityDelim c) = host.data :=
    takeWhile_append_stop P' (fun a ha => bool_not_true_of_false (hdelim a ha)) (by decide)
  have hrest : parseHttpRest scheme (host.data ++ '/' :: P') =
      some ⟨scheme, host,
        (parseAfterAuthority ((host.data ++ '/' :: P').drop host.data.length)).1,
        (parseAfterAuthority ((host.data ++ '/' :: P').drop host.data.length)).2.1,
        (parseAfterAuthority ((host.data ++ '/' :: P').drop host.data.length)).2.2⟩ := by
    rw [parseHttpRest, hauth, hhost]
  rcases hs with hs | hs <;> subst hs
  · have hfull : parseHttpUrl ⟨"http".data ++ "://".data ++ (host.data ++ '/' :: P')⟩ =
        some ⟨"http", host,
          (parseAfterAuthority ((host.data ++ '/' :: P').drop host.data.length)).1,
          (parseAfterAuthority ((host.data ++ '/' :: P').drop host.data.length)).2.1,
          (parseAfterAuthority ((host.data ++ '/' :: P').drop host.data.length)).2.2⟩ := by
      rw [parseHttpUrl]
      rw [show (String.mk ("http".data ++ "://".data ++ (host.data ++ '/' :: P'))).data =
          "http://".data ++ (host.data ++ '/' :: P') from rfl]
      rw [if_neg ?hno]
      case hno =>
        rw [isPrefixCI_https_http]
        exact Bool.false_ne_true
      rw [if_pos (isPrefixCI_append map_asciiLower_http)]
      rw [show ("http://".data ++ (host.data ++ '/' :: P')).drop 7 =
          host.data ++ '/' :: P' from rfl]
      exact hrest
    exact ⟨_, hfull, rfl, rfl⟩
  · have hfull : parseHttpUrl ⟨"https".data ++ "://".data ++ (host.data ++ '/' :: P')⟩ =
        some ⟨"https", host,
          (parseAfterAuthority ((host.data ++ '/' :: P').drop host.data.length)).1,
          (parseAfterAuthority ((host.data ++ '/' :: P').drop host.data.length)).2.1,
          (parseAfterAuthority ((host.data ++ '/' :: P').drop host.data.length)).2.2⟩ := by
      rw [parseHttpUrl]
      rw [show (String.mk ("https".data ++ "://".data ++ (host.data ++ '/' :: P'))).data =
          "https://".data ++ (host.data ++ '/' :: P') from rfl]
      rw [if_pos (isPrefixCI_append map_asciiLower_https)]
      rw [show ("https://".data ++ (host.data ++ '/' :: P')).drop 8 =
          host.data ++ '/' :: P' from rfl]
      exact hrest
    exact ⟨_, hfull, rfl, rfl⟩

theorem splitConsHead_ne_nil (c : Char) (L : List (List Char)) : splitConsHead c L ≠ [] := by
  cases L <;> simp [splitConsHead]

theorem splitC_ne_nil (sep : Char) (l : List Char) : splitC sep l ≠ [] := by
  induction l with
  | nil => simp [splitC]
  | cons c rest ih =>
    rw [splitC]
    by_cases hc : c = sep
    · rw [if_pos hc]
      simp
    · rw [if_neg hc]
      exact splitConsHead_ne_nil c _

theorem splitC_cons_self (sep : Char) (l : List Char) :
    splitC sep (sep :: l) = [] :: splitC sep l := by
  rw [splitC, if_pos rfl]

/-- Shape of the truncated path string built by `getBaseUrl`: either empty
or slash-led. -/
theorem joinSplit_dropLast_shape (s : String) (r0 : List Char) (hsd : s.data = '/' :: r0) :
    jsJoin '/' ((jsSplit '/' s).dropLast) = "" ∨
      ∃ t, (jsJoin '/' ((jsSplit '/' s).dropLast)).data = '/' :: t := by
  rw [jsSplit, hsd, splitC_cons_self]
  cases hL : splitC '/' r0 with
  | nil => exact absurd hL (splitC_ne_nil '/' r0)
  | cons g gs =>
    cases gs with
    | nil =>
      left
      rfl
    | cons g2 gs2 =>
      right
      rw [List.map_cons, List.map_cons, List.map_cons]
      rw [show (String.mk [] :: String.mk g :: String.mk g2 :: gs2.map String.mk).dropLast =
          String.mk [] :: String.mk g :: (String.mk g2 :: gs2.map String.mk).dropLast from rfl]
      rw [jsJoin]
      rw [List.map_cons, List.map_cons]
      exact ⟨_, rfl⟩

/-- Reparsing the base URL computed from a parseable URL succeeds and
keeps the scheme and host. -/
theorem getBaseUrl_reparse {url : String} {u : UrlRec} (h : parseHttpUrl url = some u) :
    ∃ ub : UrlRec, parseHttpUrl (getBaseUrl url) = some ub ∧
      ub.scheme = u.scheme ∧ ub.host = u.host := by
  obtain ⟨hs, hne, hdelim, hidem⟩ := parseHttpUrl_facts h
  have hune : ¬ url = "" := fun he => (parseHttpUrl_empty_ne (he ▸ h)).elim
  rw [getBaseUrl, if_neg hune, h]
  dsimp only
  split
  · have heqs : u.origin ++ "/" =
        String.mk (u.scheme.data ++ "://".data ++ (u.host.data ++ '/' :: [])) := by
      apply string_ext_data
      rw [show u.origin = u.scheme ++ "://" ++ u.host from rfl]
      simp [String.data_append]
    rw [heqs]
    exact parseHttpUrl_origin_slash u.scheme u.host ('/' :: []) hs hidem hne hdelim [] rfl
  · have hpd : u.pathname.data = '/' :: (joinSegs u.pathSegs).data := by
      rw [show u.pathname = "/" ++ joinSegs u.pathSegs from rfl]
      simp [String.data_append]
    rcases joinSplit_dropLast_shape u.pathname (joinSegs u.pathSegs).data hpd with hJ | ⟨t, hJ⟩
    · have heqs : u.origin ++ jsJoin '/' ((jsSplit '/' u.pathname).dropLast) ++ "/" =
          String.mk (u.scheme.data ++ "://".data ++ (u.host.data ++ '/' :: [])) := by
        apply string_ext_data
        rw [hJ]
        rw [show u.origin = u.scheme ++ "://" ++ u.host from rfl]
        simp [String.data_append]
      rw [heqs]
      exact parseHttpUrl_origin_slash u.scheme u.host ('/' :: []) hs hidem hne hdelim [] rfl
    · have heqs : u.origin ++ jsJoin '/' ((jsSplit '/' u.pathname).dropLast) ++ "/" =
          String.mk (u.scheme.data ++ "://".data ++ (u.host.data ++ '/' :: (t ++ ['/']))) := by
        apply string_ext_data
        rw [show u.origin = u.scheme ++ "://" ++ u.host from rfl]
        simp [String.data_append, hJ]
      rw [heqs]
      exact parseHttpUrl_origin_slash u.scheme u.host ('/' :: (t ++ ['/'])) hs hidem hne hdelim
        (t ++ ['/']) rfl




theorem httpRegexB_ne_empty {s : String} (h : httpRegexB s = true) : ¬ s = "" := by
  intro he
  rw [he] at h
  exact absurd h (by decide)

theorem httpRegexB_of_prefix {s : String}
    (h : (∃ Y, s.data = "http://".data ++ Y) ∨ (∃ Y, s.data = "https://".data ++ Y)) :
    httpRegexB s = true := by
  rw [httpRegexB]
  rcases h with ⟨Y, h⟩ | ⟨Y, h⟩
  · rw [h]
    rw [Bool.or_eq_true]
    exact Or.inl (isPrefixCI_append map_asciiLower_http)
  · rw [h]
    rw [Bool.or_eq_true]
    exact Or.inr (isPrefixCI_append map_asciiLower_https)

theorem httpRegexB_serialize {w : UrlRec} (hs : w.scheme = "http" ∨ w.scheme = "https") :
    httpRegexB (serializeUrl w) = true := by
  apply httpRegexB_of_prefix
  have hd : (serializeUrl w).data =
      w.scheme.data ++ "://".data ++ (w.host.data ++ (w.pathname ++ (w.query ++ w.frag)).data) := by
    rw [serializeUrl_eq]
    rw [show w.origin = w.scheme ++ "://" ++ w.host from rfl]
    simp [String.data_append]
  rcases hs with hs | hs
  · exact Or.inl ⟨_, by rw [hd, hs]; rfl⟩
  · exact Or.inr ⟨_, by rw [hd, hs]; rfl⟩

theorem httpRegexB_origin_append {u : UrlRec} (hs : u.scheme = "http" ∨ u.scheme = "https")
    (X : String) : httpRegexB (u.origin ++ X) = true := by
  apply httpRegexB_of_prefix
  have hd : (u.origin ++ X).data = u.scheme.data ++ "://".data ++ (u.host.data ++ X.data) := by
    rw [show u.origin = u.scheme ++ "://" ++ u.host from rfl]
    simp [String.data_append]
  rcases hs with hs | hs
  · exact Or.inl ⟨u.host.data ++ X.data, by rw [hd, hs]; rfl⟩
  · exact Or.inr ⟨u.host.data ++ X.data, by rw [hd, hs]; rfl⟩

/-- Resolution of an authority-relative (`//…`) reference in the model:
either a `TypeError` (`none`, outside the modelled authority fragment) or
a serialization that keeps the base's scheme. -/
theorem jsNewURL_twoslash {b t : String} {ub : UrlRec} (hb : parseHttpUrl b = some ub)
    (h3 : hasSchemePrefix t.data = false) (h4 : startsTwoSlash t.data = true) :
    jsNewURL t b = none ∨
      ∃ host2 segs q f, jsNewURL t b = some (serializeUrl ⟨ub.scheme, host2, segs, q, f⟩) := by
  rw [jsNewURL, hb]
  dsimp only
  rw [if_neg (by rw [h3]; exact Bool.false_ne_true)]
  cases hd : t.data with
  | nil => rw [hd] at h4; exact absurd h4 (by decide)
  | cons c restl =>
    rw [hd] at h4
    cases restl with
    | nil => exact absurd h4 (by simp [startsTwoSlash])
    | cons c2 rest2 =>
      rw [startsTwoSlash, Bool.and_eq_true, decide_eq_true_iff, decide_eq_true_iff] at h4
      obtain ⟨hc, hc2⟩ := h4
      subst hc
      subst hc2
      dsimp only
      rw [if_pos rfl, if_pos (by rw [startsTwoSlash]; simp)]
      simp only [List.drop_succ_cons, List.drop_zero]
      cases hpa : parseAuthority ub.scheme
          (rest2.takeWhile fun x => !isAuthorityDelim x) with
      | none => exact Or.inl rfl
      | some host2 => exact Or.inr ⟨host2, _, _, _, rfl⟩


/-- Any reference that already matches `^https?://` or carries no scheme
resolves, against a parseable source URL's base, to a string matching
`^https?://`. -/
theorem resolveUrl_http {url : String} {u : UrlRec} (hu : parseHttpUrl url = some u)
    (t : String) (ht : ¬ t = "")
    (hok : httpRegexB t = true ∨ hasSchemePrefix t.data = false) :
    httpRegexB (resolveUrl (getBaseUrl url) t) = true := by
  obtain ⟨ub, hub, hsch, hhost⟩ := getBaseUrl_reparse hu
  obtain ⟨husch, hrest⟩ := parseHttpUrl_facts hu
  have hubsch : ub.scheme = "http" ∨ ub.scheme = "https" := by rw [hsch]; exact husch
  have hbne : ¬ getBaseUrl url = "" := fun he => (parseHttpUrl_empty_ne (he ▸ hub)).elim
  by_cases hreg : httpRegexB t = true
  · rw [resolveUrl, if_neg (by push_neg; exact ⟨hbne, ht⟩), if_pos hreg]
    exact hreg
  · have hnos : hasSchemePrefix t.data = false := by
      rcases hok with hok | hok
      · exact absurd hok hreg
      · exact hok
    rw [resolveUrl, if_neg (by push_neg; exact ⟨hbne, ht⟩), if_neg hreg]
    by_cases h2s : startsTwoSlash t.data = true
    · rcases jsNewURL_twoslash hub hnos h2s with hnone | ⟨host2, segs, q, f, hsome⟩
      · rw [hnone]
        have hhead : t.data.head? = some '/' := by
          cases hd2 : t.data with
          | nil => rw [hd2] at h2s; exact absurd h2s (by decide)
          | cons c r =>
            rw [hd2] at h2s
            cases r with
            | nil => exact absurd h2s (by simp [startsTwoSlash])
            | cons c2 r2 =>
              rw [startsTwoSlash, Bool.and_eq_true, decide_eq_true_iff,
                  decide_eq_true_iff] at h2s
              rw [h2s.1]
              rfl
        rw [if_pos hhead, hub]
        exact httpRegexB_origin_append hubsch t
      · rw [hsome]
        exact httpRegexB_serialize hubsch
    · obtain ⟨segs, q, f, hnew⟩ :=
        jsNewURL_no_scheme (getBaseUrl url) t ub hub ht hnos (Bool.eq_false_iff.mpr h2s)
      rw [hnew]
      exact httpRegexB_serialize hubsch

theorem findUriAttr_uri_ne_nil : ∀ {l p uri after : List Char},
    findUriAttr l = some (p, uri, after) → uri ≠ [] := by
  intro l
  induction l with
  | nil =>
    intro p uri after h
    exact Option.noConfusion h
  | cons c rest ih =>
    intro p uri after h
    rw [findUriAttr] at h
    split at h
    · rename_i uri2 after2 hm
      injection h with h2
      have h3 := congrArg (fun x => x.2.1) h2
      dsimp only at h3
      rw [matchUriHere] at hm
      split at hm
      · split at hm
        · exact Option.noConfusion hm
        rename_i hne
        split at hm
        · rename_i tail heq
          injection hm with hm2
          have h4 := congrArg Prod.fst hm2
          dsimp only at h4
          rw [← h3, ← h4]
          exact hne
        · exact Option.noConfusion hm
      · exact Option.noConfusion hm
    · split at h
      · rename_i p2 uri2 after2 hrec
        injection h with h2
        have h3 := congrArg (fun x => x.2.1) h2
        dsimp only at h3
        rw [← h3]
        exact ih hrec
      · exact Option.noConfusion h


theorem jsStartsWith_mono {p q s : String} (hpq : p.data <+: q.data)
    (h : jsStartsWith q s = true) : jsStartsWith p s = true := by
  rw [jsStartsWith] at h ⊢
  exact List.isPrefixOf_iff_prefix.mpr (hpq.trans (List.isPrefixOf_iff_prefix.mp h))

theorem hash_not_of (pat s : String) (hpat : ("#" : String).data <+: pat.data)
    (hhash : jsStartsWith "#" s = false) : ¬ jsStartsWith pat s = true := by
  intro h
  rw [jsStartsWith_mono hpat h] at hhash
  exact Bool.noConfusion hhash

/-- C9 (amended) per-line invariant of the media-playlist rewriter. -/
theorem c9_media_line_invariant (url : String) (u : UrlRec) (hu : parseHttpUrl url = some u)
    (t : String) :
    (¬ t = "" → jsStartsWith "#" t = false →
      (httpRegexB t = true ∨ hasSchemePrefix t.data = false) →
      ∃ A, rewriteMediaLine (getBaseUrl url) t = "/api/proxy/" ++ encodeURIComponent A ∧
        A = resolveUrl (getBaseUrl url) t ∧
        decodeURIComponent (encodeURIComponent A) = some A ∧ httpRegexB A = true) ∧
    (jsStartsWith "#" t = true → jsStartsWith "#EXT-X-KEY" t = false →
      jsStartsWith "#EXT-X-MAP" t = false → rewriteMediaLine (getBaseUrl url) t = t) ∧
    ((jsStartsWith "#EXT-X-KEY" t = true ∨ jsStartsWith "#EXT-X-MAP" t = true) →
      findUriAttr t.data = none → rewriteMediaLine (getBaseUrl url) t = t) ∧
    (∀ p uri after, findUriAttr t.data = some (p, uri, after) →
      (jsStartsWith "#EXT-X-KEY" t = true ∨ jsStartsWith "#EXT-X-MAP" t = true) →
      (httpRegexB ⟨uri⟩ = true ∨ hasSchemePrefix uri = false) →
      ∃ A, rewriteMediaLine (getBaseUrl url) t =
          ⟨p⟩ ++ "URI=\"" ++ ("/api/proxy/" ++ encodeURIComponent A) ++ "\"" ++ ⟨after⟩ ∧
        A = resolveUrl (getBaseUrl url) ⟨uri⟩ ∧
        decodeURIComponent (encodeURIComponent A) = some A ∧ httpRegexB A = true) := by
  refine ⟨?_, ?_, ?_, ?_⟩
  · intro hne hhash hok
    have hA := resolveUrl_http hu t hne hok
    refine ⟨resolveUrl (getBaseUrl url) t, ?_, rfl,
      decodeURIComponent_encodeURIComponent _, hA⟩
    rw [rewriteMediaLine]
    rw [if_neg (hash_not_of "#EXT-X-KEY" t ⟨"EXT-X-KEY".data, rfl⟩ hhash)]
    rw [if_neg (hash_not_of "#EXT-X-MAP" t ⟨"EXT-X-MAP".data, rfl⟩ hhash)]
    rw [if_neg (hash_not_of "#EXTINF" t ⟨"EXTINF".data, rfl⟩ hhash)]
    rw [if_pos (show (!(jsStartsWith "#" t)) = true by rw [hhash]; rfl)]
    rw [rewriteUrlToProxy, if_neg (httpRegexB_ne_empty hA)]
  · intro h1 h2 h3
    rw [rewriteMediaLine]
    rw [if_neg (by rw [h2]; exact Bool.false_ne_true)]
    rw [if_neg (by rw [h3]; exact Bool.false_ne_true)]
    by_cases hinf : jsStartsWith "#EXTINF" t = true
    · rw [if_pos hinf]
    · rw [if_neg hinf]
      rw [if_neg (show ¬ (!(jsStartsWith "#" t)) = true by rw [h1]; exact Bool.false_ne_true)]
  · intro hkm hnone
    rw [rewriteMediaLine]
    by_cases hkey : jsStartsWith "#EXT-X-KEY" t = true
    · rw [if_pos hkey, processKeyLine, hnone]
    · rcases hkm with hkm | hkm
      · exact absurd hkm hkey
      · rw [if_neg hkey, if_pos hkm, processMapLine, hnone]
  · intro p uri after hsome hkm hok
    have hune : uri ≠ [] := findUriAttr_uri_ne_nil hsome
    have hsne : ¬ (String.mk uri) = "" := fun he => hune ((string_eq_empty_iff _).mp he)
    have hA := resolveUrl_http hu (String.mk uri) hsne hok
    refine ⟨resolveUrl (getBaseUrl url) ⟨uri⟩, ?_, rfl,
      decodeURIComponent_encodeURIComponent _, hA⟩
    by_cases hkey : jsStartsWith "#EXT-X-KEY" t = true
    · rw [rewriteMediaLine, if_pos hkey, processKeyLine, hsome]
      dsimp only
      rw [rewriteUrlToProxy, if_neg (httpRegexB_ne_empty hA)]
    · rcases hkm with hkm | hkm
      · exact absurd hkm hkey
      · rw [rewriteMediaLine, if_neg hkey, if_pos hkm, processMapLine, hsome]
        dsimp only
        rw [rewriteUrlToProxy, if_neg (httpRegexB_ne_empty hA)]



/-- C9 counterexample: a segment line with a non-HTTP scheme is embedded
as-is, so the percent-decoded embedded URL does not match `^https?://`. -/
theorem c9_counterexample :
    processMediaPlaylist "https://h/p/l.m3u8" "ftp://x/a" = "/api/proxy/ftp%3A%2F%2Fx%2Fa" ∧
    decodeURIComponent "ftp%3A%2F%2Fx%2Fa" = some "ftp://x/a" ∧
    httpRegexB "ftp://x/a" = false := by decide

/-- Witness for C9 on a relative segment line. -/
theorem c9_media_line_invariant_witness :
    parseHttpUrl "https://h/p/l.m3u8" = some ⟨"https", "h", ["p", "l.m3u8"], "", ""⟩ ∧
    (∃ A, rewriteMediaLine (getBaseUrl "https://h/p/l.m3u8") "seg.ts" =
        "/api/proxy/" ++ encodeURIComponent A ∧
      A = resolveUrl (getBaseUrl "https://h/p/l.m3u8") "seg.ts" ∧
      decodeURIComponent (encodeURIComponent A) = some A ∧ httpRegexB A = true) :=
  ⟨by decide,
    (c9_media_line_invariant "https://h/p/l.m3u8" ⟨"https", "h", ["p", "l.m3u8"], "", ""⟩
      (by decide) "seg.ts").1 (by decide) (by decide) (by decide)⟩





theorem hexUpper_range {n : Nat} (h : n < 16) :
    (48 ≤ (hexUpper n).toNat ∧ (hexUpper n).toNat ≤ 57) ∨
      (65 ≤ (hexUpper n).toNat ∧ (hexUpper n).toNat ≤ 70) := by
  rw [hexUpper]
  by_cases h10 : n < 10
  · rw [if_pos h10]
    rw [charToNat_ofNat (Or.inl (by omega))]
    omega
  · rw [if_neg h10]
    rw [charToNat_ofNat (Or.inl (by omega))]
    omega

theorem pctByte_chars {b : Nat} (hb : b < 256) {d : Char} (h : d ∈ pctByte b) :
    d = '%' ∨ (48 ≤ d.toNat ∧ d.toNat ≤ 57) ∨ (65 ≤ d.toNat ∧ d.toNat ≤ 70) := by
  rw [pctByte] at h
  simp only [List.mem_cons, List.not_mem_nil, or_false] at h
  rcases h with h | h | h
  · exact Or.inl h
  · rcases hexUpper_range (show b / 16 < 16 by omega) with hr | hr
    · right; left; rw [h]; exact hr
    · right; right; rw [h]; exact hr
  · rcases hexUpper_range (show b % 16 < 16 by omega) with hr | hr
    · right; left; rw [h]; exact hr
    · right; right; rw [h]; exact hr

theorem utf8Bytes_lt {v : Nat} (hv : v < 1114112) : ∀ b ∈ utf8Bytes v, b < 256 := by
  rw [utf8Bytes]
  by_cases h1 : v < 128
  · rw [if_pos h1]
    intro b hb
    simp at hb
    omega
  · rw [if_neg h1]
    by_cases h2 : v < 2048
    · rw [if_pos h2]
      intro b hb
      simp at hb
      rcases hb with hb | hb <;> omega
    · rw [if_neg h2]
      by_cases h3 : v < 65536
      · rw [if_pos h3]
        intro b hb
        simp at hb
        rcases hb with hb | hb | hb <;> omega
      · rw [if_neg h3]
        intro b hb
        simp at hb
        rcases hb with hb | hb | hb | hb <;> omega

theorem pctBytes_mem_chars : ∀ {bs : List Nat}, (∀ b ∈ bs, b < 256) →
    ∀ {d : Char}, d ∈ pctBytes bs →
      d = '%' ∨ (48 ≤ d.toNat ∧ d.toNat ≤ 57) ∨ (65 ≤ d.toNat ∧ d.toNat ≤ 70) := by
  intro bs
  induction bs with
  | nil =>
    intro _ d h
    exact absurd h (List.not_mem_nil d)
  | cons b rest ih =>
    intro hbs d h
    rw [pctBytes, List.mem_append] at h
    rcases h with h | h
    · exact pctByte_chars (hbs b (by simp)) h
    · exact ih (fun x hx => hbs x (by simp [hx])) h

theorem encodeChar_mem_chars {c d : Char} (h : d ∈ encodeChar c) :
    isUriUnreserved d = true ∨ d = '%' ∨
      (48 ≤ d.toNat ∧ d.toNat ≤ 57) ∨ (65 ≤ d.toNat ∧ d.toNat ≤ 70) := by
  rw [encodeChar] at h
  by_cases hu : isUriUnreserved c = true
  · rw [if_pos hu] at h
    simp at h
    rw [h]
    exact Or.inl hu
  · rw [if_neg hu] at h
    have hv : c.toNat < 1114112 := by
      rcases char_valid c with hc | hc <;> omega
    exact Or.inr (pctBytes_mem_chars (utf8Bytes_lt hv) h)

theorem encodeURIComponentL_mem_chars : ∀ {l : List Char} {d : Char},
    d ∈ encodeURIComponentL l →
      isUriUnreserved d = true ∨ d = '%' ∨
        (48 ≤ d.toNat ∧ d.toNat ≤ 57) ∨ (65 ≤ d.toNat ∧ d.toNat ≤ 70) := by
  intro l
  induction l with
  | nil =>
    intro d h
    exact absurd h (List.not_mem_nil d)
  | cons c rest ih =>
    intro d h
    rw [encodeURIComponentL, List.mem_append] at h
    rcases h with h | h
    · exact encodeChar_mem_chars h
    · exact ih h

/-- Characters of a percent-encoded URL: never a path/query/fragment
delimiter. -/
theorem encodeURIComponentL_safe {l : List Char} :
    ∀ d ∈ encodeURIComponentL l, isQueryFragDelim d = false ∧ ¬ d = '/' := by
  intro d h
  rcases encodeURIComponentL_mem_chars h with hcl | hcl | hcl | hcl
  · constructor
    · rw [Bool.eq_false_iff]
      intro hq
      rcases decide_eq_true_iff.mp hq with he | he <;> rw [he] at hcl <;>
        exact absurd hcl (by decide)
    · intro he
      rw [he] at hcl
      exact absurd hcl (by decide)
  · rw [hcl]
    exact ⟨by decide, by decide⟩
  · constructor
    · rw [Bool.eq_false_iff]
      intro hq
      rcases decide_eq_true_iff.mp hq with he | he <;> rw [he] at hcl <;>
        exact absurd hcl (by decide)
    · intro he
      rw [he] at hcl
      exact absurd hcl (by decide)
  · constructor
    · rw [Bool.eq_false_iff]
      intro hq
      rcases decide_eq_true_iff.mp hq with he | he <;> rw [he] at hcl <;>
        exact absurd hcl (by decide)
    · intro he
      rw [he] at hcl
      exact absurd hcl (by decide)


theorem splitC_cons_ne {sep c : Char} (h : ¬ c = sep) (l : List Char) :
    splitC sep (c :: l) = splitConsHead c (splitC sep l) := by
  rw [splitC, if_neg h]

theorem splitC_no_sep : ∀ {l : List Char} {sep : Char}, (∀ c ∈ l, ¬ c = sep) →
    splitC sep l = [l] := by
  intro l
  induction l with
  | nil => intro sep _; rfl
  | cons c rest ih =>
    intro sep h
    rw [splitC_cons_ne (h c (by simp)), ih (fun x hx => h x (by simp [hx]))]
    rfl

theorem splitC_append_sep : ∀ {A : List Char} {sep : Char}, (∀ c ∈ A, ¬ c = sep) →
    ∀ B, splitC sep (A ++ sep :: B) = A :: splitC sep B := by
  intro A
  induction A with
  | nil =>
    intro sep _ B
    rw [List.nil_append, splitC_cons_self]
  | cons c rest ih =>
    intro sep h B
    rw [List.cons_append, splitC_cons_ne (h c (by simp)),
        ih (fun x hx => h x (by simp [hx]))]
    rfl

theorem normSegsCore_no_dots : ∀ {segs : List String}, (∀ s ∈ segs, ¬ s = "." ∧ ¬ s = "..") →
    ∀ acc, normSegsCore acc segs = acc.reverse ++ segs := by
  intro segs
  induction segs with
  | nil =>
    intro _ acc
    rw [normSegsCore, List.append_nil]
  | cons s rest ih =>
    intro h acc
    cases rest with
    | nil =>
      rw [normSegsCore, if_neg (h s (by simp)).2, if_neg (h s (by simp)).1,
          List.reverse_cons]
    | cons s2 rest2 =>
      rw [normSegsCore, if_neg (h s (by simp)).2, if_neg (h s (by simp)).1,
          ih (fun x hx => h x (by simp [hx])) (s :: acc), List.reverse_cons,
          List.append_assoc]
      rfl

/-- `parseAfterAuthority` on an already-proxied path: three clean
segments, no query, no fragment. -/
theorem parseAfterAuthority_proxy {E : List Char}
    (hE : ∀ d ∈ E, isQueryFragDelim d = false ∧ ¬ d = '/')
    (hEd1 : ¬ String.mk E = ".") (hEd2 : ¬ String.mk E = "..") :
    parseAfterAuthority ("/api/proxy/".data ++ E) = (["api", "proxy", String.mk E], "", "") := by
  have hall : ∀ c ∈ "/api/proxy/".data ++ E, (!isQueryFragDelim c) = true := by
    intro c hc
    rcases List.mem_append.mp hc with hc | hc
    · fin_cases hc <;> decide
    · exact bool_not_true_of_false (hE c hc).1
  have h1 : ("/api/proxy/".data ++ E).takeWhile (fun c => !isQueryFragDelim c) =
      "/api/proxy/".data ++ E := List.takeWhile_eq_self_iff.mpr hall
  rw [parseAfterAuthority, h1]
  rw [if_neg (by simp)]
  rw [List.drop_length, show (("/api/proxy/".data ++ E).drop 1) =
      "api".data ++ '/' :: ("proxy".data ++ '/' :: E) from rfl]
  rw [splitC_append_sep (by intro c hc; fin_cases hc <;> decide)]
  rw [splitC_append_sep (by intro c hc; fin_cases hc <;> decide)]
  rw [splitC_no_sep (fun c hc => (hE c hc).2)]
  rw [List.map_cons, List.map_cons, List.map_cons, List.map_nil]
  rw [normSegs, normSegsCore_no_dots ?hdots []]
  case hdots =>
    intro x hx
    simp only [List.mem_cons, List.not_mem_nil, or_false] at hx
    rcases hx with hx | hx | hx <;> rw [hx]
    · exact ⟨by decide, by decide⟩
    · exact ⟨by decide, by decide⟩
    · exact ⟨hEd1, hEd2⟩
  rfl

theorem httpRegexB_head {tgt : String} (h : httpRegexB tgt = true) :
    ∃ c0 r, tgt.data = c0 :: r ∧ (c0 = 'h' ∨ c0 = 'H') := by
  rw [httpRegexB, Bool.or_eq_true] at h
  have hlow : ∃ c0 r, tgt.data = c0 :: r ∧ asciiLower c0 = 'h' := by
    rcases h with h | h <;>
    · rw [isPrefixCI] at h
      cases hd : tgt.data with
      | nil => rw [hd] at h; exact absurd h (by decide)
      | cons c0 r =>
        rw [hd, List.map_cons] at h
        refine ⟨c0, r, rfl, ?_⟩
        have h2 := List.isPrefixOf_iff_prefix.mp h
        obtain ⟨tl, htl⟩ := h2
        have := congrArg (fun l => l.head?) htl
        simpa using this.symm
  obtain ⟨c0, r, hd, hlow0⟩ := hlow
  refine ⟨c0, r, hd, ?_⟩
  rcases asciiLower_cases c0 with hc | ⟨h1, h2, h3⟩
  · left
    rw [← hc, hlow0]
  · right
    have h4 : c0.toNat = 72 := by
      have h5 : (asciiLower c0).toNat = 104 := by rw [hlow0]; decide
      omega
    exact (charEq_iff c0 'H').mpr h4

theorem encodeURIComponent_head {tgt : String} (h : httpRegexB tgt = true) :
    ∃ c0 r, (encodeURIComponent tgt).data = c0 :: r ∧ (c0 = 'h' ∨ c0 = 'H') := by
  obtain ⟨c0, r, hd, hc0⟩ := httpRegexB_head h
  refine ⟨c0, encodeURIComponentL r, ?_, hc0⟩
  show encodeURIComponentL tgt.data = c0 :: encodeURIComponentL r
  rw [hd, encodeURIComponentL]
  have : encodeChar c0 = [c0] := by
    rcases hc0 with hc0 | hc0 <;> rw [hc0] <;> decide
  rw [this]
  rfl



theorem httpRegexB_slash {s : String} {r : List Char} (hd : s.data = '/' :: r) :
    httpRegexB s = false := by
  rw [httpRegexB, isPrefixCI, isPrefixCI, hd, List.map_cons]
  rw [show asciiLower '/' = '/' from rfl]
  simp [List.isPrefixOf]

theorem hasSchemePrefix_slash (r : List Char) : hasSchemePrefix ('/' :: r) = false := by
  rw [hasSchemePrefix]
  rw [show isAsciiAlpha '/' = false from rfl]
  rfl

theorem jsStartsWith_false_of_heads {pat s : String} {a b : Char} {pr sr : List Char}
    (hp : pat.data = a :: pr) (hsd : s.data = b :: sr) (hne : ¬ a = b) :
    jsStartsWith pat s = false := by
  rw [jsStartsWith, hp, hsd]
  rw [show List.isPrefixOf (a :: pr) (b :: sr) = (a == b && List.isPrefixOf pr sr) from rfl]
  rw [show (a == b) = false from beq_eq_false_iff_ne.mpr hne]
  rfl

theorem encodeURIComponentL_length (l : List Char) :
    l.length ≤ (encodeURIComponentL l).length := by
  induction l with
  | nil => simp [encodeURIComponentL]
  | cons c rest ih =>
    rw [encodeURIComponentL, List.length_append, List.length_cons]
    have h1 : 1 ≤ (encodeChar c).length := by
      cases hec : encodeChar c with
      | nil => exact absurd hec (encodeChar_ne_nil c)
      | cons x xs => simp
    omega

/-- Second-pass resolution of an already-proxied line: the base's origin
is prepended. -/
theorem resolveUrl_proxy_line {url : String} {u : UrlRec} (hu : parseHttpUrl url = some u)
    {tgt : String} (htgt : httpRegexB tgt = true) :
    resolveUrl (getBaseUrl url) ("/api/proxy/" ++ encodeURIComponent tgt) =
      u.origin ++ ("/api/proxy/" ++ encodeURIComponent tgt) := by
  obtain ⟨ub, hub, hsch, hhost⟩ := getBaseUrl_reparse hu
  obtain ⟨husch, hrest2⟩ := parseHttpUrl_facts hu
  have horig : ub.origin = u.origin := by
    rw [show ub.origin = ub.scheme ++ "://" ++ ub.host from rfl, hsch, hhost]
    rfl
  have hLdata : ("/api/proxy/" ++ encodeURIComponent tgt).data =
      '/' :: ("api/proxy/".data ++ encodeURIComponentL tgt.data) := by
    rw [String.data_append]
    rfl
  have hbne : ¬ getBaseUrl url = "" := fun he => (parseHttpUrl_empty_ne (he ▸ hub)).elim
  have hLne : ¬ ("/api/proxy/" ++ encodeURIComponent tgt) = "" := by
    intro he
    have h2 := congrArg String.data he
    rw [hLdata] at h2
    exact List.noConfusion h2
  have hregex := httpRegexB_slash hLdata
  obtain ⟨c0, r0, hEd, hc0⟩ := encodeURIComponent_head htgt
  have hEd1 : ¬ String.mk (encodeURIComponentL tgt.data) = "." := by
    intro he
    have h2 := congrArg String.data he
    rw [show (String.mk (encodeURIComponentL tgt.data)).data =
        (encodeURIComponent tgt).data from rfl, hEd] at h2
    injection h2 with h3 h4
    rcases hc0 with hc0 | hc0 <;> rw [hc0] at h3 <;> exact absurd h3 (by decide)
  have hEd2 : ¬ String.mk (encodeURIComponentL tgt.data) = ".." := by
    intro he
    have h2 := congrArg String.data he
    rw [show (String.mk (encodeURIComponentL tgt.data)).data =
        (encodeURIComponent tgt).data from rfl, hEd] at h2
    injection h2 with h3 h4
    rcases hc0 with hc0 | hc0 <;> rw [hc0] at h3 <;> exact absurd h3 (by decide)
  have h2s : startsTwoSlash ('/' :: ("api/proxy/".data ++ encodeURIComponentL tgt.data)) =
      false := rfl
  rw [resolveUrl, if_neg (by push_neg; exact ⟨hbne, hLne⟩),
      if_neg (by rw [hregex]; exact Bool.false_ne_true)]
  rw [jsNewURL, hub]
  dsimp only
  rw [if_neg (by rw [hLdata, hasSchemePrefix_slash]; exact Bool.false_ne_true)]
  rw [hLdata]
  dsimp only
  rw [if_pos rfl, if_neg (by rw [h2s]; exact Bool.false_ne_true)]
  rw [show ('/' :: ("api/proxy/".data ++ encodeURIComponentL tgt.data)) =
      "/api/proxy/".data ++ encodeURIComponentL tgt.data from rfl]
  rw [parseAfterAuthority_proxy encodeURIComponentL_safe hEd1 hEd2]
  dsimp only
  have hser : serializeUrl ⟨ub.scheme, ub.host,
      ["api", "proxy", String.mk (encodeURIComponentL tgt.data)], "", ""⟩ =
      ub.origin ++ ("/api/proxy/" ++ encodeURIComponent tgt) := by
    apply string_ext_data
    rw [serializeUrl_eq]
    simp only [String.data_append]
    rw [show (UrlRec.origin ⟨ub.scheme, ub.host,
        ["api", "proxy", String.mk (encodeURIComponentL tgt.data)], "", ""⟩) =
        ub.origin from rfl]
    congr 1
    rw [show (UrlRec.pathname ⟨ub.scheme, ub.host,
        ["api", "proxy", String.mk (encodeURIComponentL tgt.data)], "", ""⟩) =
        "/" ++ ("api" ++ "/" ++ ("proxy" ++ "/" ++ String.mk (encodeURIComponentL tgt.data)))
        from rfl]
    simp [String.data_append]
    rfl
  rw [hser, horig]



/-- C8 counterexample: one pass proxies `seg0.ts`; feeding the output
back in re-proxies the already-proxied line, and the embedded URL decoded
from the twice-rewritten line is no longer the original target. -/
theorem c8_counterexample :
    processMediaPlaylist "https://host/path/live.m3u8" "seg0.ts" =
      "/api/proxy/https%3A%2F%2Fhost%2Fpath%2Fseg0.ts" ∧
    decodeURIComponent "https%3A%2F%2Fhost%2Fpath%2Fseg0.ts" =
      some "https://host/path/seg0.ts" ∧
    processMediaPlaylist "https://host/path/live.m3u8"
        "/api/proxy/https%3A%2F%2Fhost%2Fpath%2Fseg0.ts" =
      "/api/proxy/https%3A%2F%2Fhost%2Fapi%2Fproxy%2Fhttps%253A%252F%252Fhost%252Fpath%252Fseg0.ts" ∧
    decodeURIComponent
        "https%3A%2F%2Fhost%2Fapi%2Fproxy%2Fhttps%253A%252F%252Fhost%252Fpath%252Fseg0.ts" =
      some "https://host/api/proxy/https%3A%2F%2Fhost%2Fpath%2Fseg0.ts" ∧
    ¬ ("https://host/api/proxy/https%3A%2F%2Fhost%2Fpath%2Fseg0.ts" : String) =
      "https://host/path/seg0.ts" := by
  decide

/-- C8 (amended): a second pass over an already-proxied line does
double-encode it — the line becomes the proxy path of the base origin
joined with the once-proxied path, so its embedded URL is that origin-
prefixed proxy path, which differs from the original target URL. -/
theorem c8_double_proxy (url tgt : String) (u : UrlRec) (hu : parseHttpUrl url = some u)
    (htgt : httpRegexB tgt = true) :
    rewriteMediaLine (getBaseUrl url) (rewriteUrlToProxy tgt) =
      rewriteUrlToProxy (u.origin ++ rewriteUrlToProxy tgt) ∧
    decodeURIComponent (encodeURIComponent (u.origin ++ rewriteUrlToProxy tgt)) =
      some (u.origin ++ rewriteUrlToProxy tgt) ∧
    ¬ u.origin ++ rewriteUrlToProxy tgt = tgt := by
  have htne := httpRegexB_ne_empty htgt
  have hline : rewriteUrlToProxy tgt = "/api/proxy/" ++ encodeURIComponent tgt := by
    rw [rewriteUrlToProxy, if_neg htne]
  have hLdata : ("/api/proxy/" ++ encodeURIComponent tgt).data =
      '/' :: ("api/proxy/".data ++ encodeURIComponentL tgt.data) := by
    rw [String.data_append]
    rfl
  refine ⟨?_, decodeURIComponent_encodeURIComponent _, ?_⟩
  · rw [hline, rewriteMediaLine]
    rw [if_neg (by
      rw [jsStartsWith_false_of_heads rfl hLdata (by decide)]
      exact Bool.false_ne_true)]
    rw [if_neg (by
      rw [jsStartsWith_false_of_heads rfl hLdata (by decide)]
      exact Bool.false_ne_true)]
    rw [if_neg (by
      rw [jsStartsWith_false_of_heads rfl hLdata (by decide)]
      exact Bool.false_ne_true)]
    rw [if_pos (by
      rw [jsStartsWith_false_of_heads rfl hLdata (by decide)]
      rfl)]
    rw [resolveUrl_proxy_line hu htgt]
  · intro he
    rw [hline] at he
    have hlen := congrArg (fun s => s.data.length) he
    dsimp only at hlen
    rw [String.data_append, String.data_append, List.length_append, List.length_append] at hlen
    have hgrow := encodeURIComponentL_length tgt.data
    rw [show ((encodeURIComponent tgt).data.length) =
        (encodeURIComponentL tgt.data).length from rfl] at hlen
    rw [show ("/api/proxy/" : String).data.length = 11 from rfl] at hlen
    omega



/-- Witness for C8 at a concrete source URL and target. -/
theorem c8_double_proxy_witness :
    parseHttpUrl "https://host/path/live.m3u8" =
      some ⟨"https", "host", ["path", "live.m3u8"], "", ""⟩ ∧
    httpRegexB "https://host/path/seg0.ts" = true ∧
    (rewriteMediaLine (getBaseUrl "https://host/path/live.m3u8")
        (rewriteUrlToProxy "https://host/path/seg0.ts") =
      rewriteUrlToProxy ((⟨"https", "host", ["path", "live.m3u8"], "", ""⟩ : UrlRec).origin ++
        rewriteUrlToProxy "https://host/path/seg0.ts") ∧
    decodeURIComponent (encodeURIComponent
        ((⟨"https", "host", ["path", "live.m3u8"], "", ""⟩ : UrlRec).origin ++
          rewriteUrlToProxy "https://host/path/seg0.ts")) =
      some ((⟨"https", "host", ["path", "live.m3u8"], "", ""⟩ : UrlRec).origin ++
        rewriteUrlToProxy "https://host/path/seg0.ts") ∧
    ¬ (⟨"https", "host", ["path", "live.m3u8"], "", ""⟩ : UrlRec).origin ++
        rewriteUrlToProxy "https://host/path/seg0.ts" = "https://host/path/seg0.ts") :=
  ⟨by decide, by decide,
    c8_double_proxy "https://host/path/live.m3u8" "https://host/path/seg0.ts"
      ⟨"https", "host", ["path", "live.m3u8"], "", ""⟩ (by decide) (by decide)⟩



end LibreTV

namespace LibreTV

/-! ### Fetch and master-playlist model

The outbound `fetch` transport is the injected capability of the spec: it
is modelled by an oracle giving each URL's response.  The second
component of each function's result records the outbound calls actually
issued, in order.  The random User-Agent draw of `getRandomUserAgent` is
a parameter `ua` of the model. -/

structure FetchResult where
  content : String
  contentType : String
deriving DecidableEq

/-- Upstream network behavior; `Except.error` models a non-success
status or a transport failure thrown inside `fetch`. -/
def FetchOracle : Type := String → Except String FetchResult

structure InboundHeaders where
  acceptLanguage : Option String
  referer : Option String
deriving DecidableEq

structure OutboundHeaders where
  userAgent : String
  accept : String
  acceptLanguage : String
  referer : String
deriving DecidableEq

structure FetchCall where
  url : String
  headersSent : OutboundHeaders
deriving DecidableEq

def defaultAcceptLanguage : String := "zh-CN,zh;q=0.9,en;q=0.8"

/-- JavaScript `a || b` on an optional header value (the empty string is
falsy). -/
def jsOrElse : Option String → String → String
  | some s, d => if s = "" then d else s
  | none, d => d

/-- Header assembly of `fetchContentWithType` (part_000, lines 92-97);
`none` models the `TypeError` thrown by `new URL(targetUrl)` when the
Referer must be derived from an unparseable target URL. -/
def buildOutboundHeaders (ua targetUrl : String) (h : InboundHeaders) :
    Option OutboundHeaders :=
  match h.referer with
  | some r =>
    if r = "" then
      match jsUrlOrigin targetUrl with
      | some o => some ⟨ua, "*/*", jsOrElse h.acceptLanguage defaultAcceptLanguage, o⟩
      | none => none
    else some ⟨ua, "*/*", jsOrElse h.acceptLanguage defaultAcceptLanguage, r⟩
  | none =>
    match jsUrlOrigin targetUrl with
    | some o => some ⟨ua, "*/*", jsOrElse h.acceptLanguage defaultAcceptLanguage, o⟩
    | none => none

inductive ProxyError where
  | invalidPath
  | refererUrlError (url : String)
  | fetchFailed (url : String) (msg : String)
  | recursionLimit (maxRecursion : Nat) (url : String)
deriving DecidableEq

/-- Source `fetchContentWithType` (part_000, lines 91-118): build the
outbound headers, issue the request, propagate failures as errors. -/
def fetchContentWithType (oracle : FetchOracle) (ua targetUrl : String)
    (h : InboundHeaders) : Except ProxyError FetchResult × List FetchCall :=
  match buildOutboundHeaders ua targetUrl h with
  | none => (.error (.refererUrlError targetUrl), [])
  | some oh =>
    match oracle targetUrl with
    | .error msg => (.error (.fetchFailed targetUrl msg), [⟨targetUrl, oh⟩])
    | .ok res => (.ok res, [⟨targetUrl, oh⟩])

def emptyInbound : InboundHeaders := ⟨none, none⟩

/-- First match of `/BANDWIDTH=(\d+)/` (part_000, line 201).  `parseInt`
is modelled exactly on naturals; the float rounding of digit strings
beyond 2^53 is outside the model. -/
def scanBandwidth : List Char → Option Nat
  | [] => none
  | c :: rest =>
    if "BANDWIDTH=".data.isPrefixOf (c :: rest) = true ∧
        ((c :: rest).drop 10).takeWhile isDigitB ≠ [] then
      some (natOfDigits (((c :: rest).drop 10).takeWhile isDigitB))
    else scanBandwidth rest

/-- `bandwidthMatch ? parseInt(bandwidthMatch[1], 10) : 0` (part_000,
line 202). -/
def extractBandwidth (line : String) : Nat := (scanBandwidth line.data).getD 0

/-- The variant-selection loop of `processMasterPlaylist` (part_000,
lines 199-215), written as a mode machine over the lines: in mode `none`
it scans for an (untrimmed) `#EXT-X-STREAM-INF` header; in mode `some bw`
it scans for the following non-empty non-comment trimmed line, exactly as
the source's inner `j` loop with its `i = j` jump does (lines the inner
loop skips are never re-examined as headers, and a header whose search
exhausts the input leaves the accumulated best pair unchanged). -/
def selectLoopGo (baseUrl : String) : List String → Option Nat → Int → String → Int × String
  | [], _, hb, bv => (hb, bv)
  | l :: rest, none, hb, bv =>
    if jsStartsWith "#EXT-X-STREAM-INF" l = true then
      selectLoopGo baseUrl rest (some (extractBandwidth l)) hb bv
    else selectLoopGo baseUrl rest none hb bv
  | l :: rest, some bw, hb, bv =>
    if ¬ jsTrim l = "" ∧ jsStartsWith "#" (jsTrim l) = false then
      if (bw : Int) ≥ hb then
        selectLoopGo baseUrl rest none (bw : Int) (resolveUrl baseUrl (jsTrim l))
      else selectLoopGo baseUrl rest none hb bv
    else selectLoopGo baseUrl rest (some bw) hb bv

/-- The `(highestBandwidth, bestVariantUrl)` pair computed by the loop,
starting from `(-1, "")`. -/
def selectVariant (baseUrl content : String) : Int × String :=
  selectLoopGo baseUrl ((splitC '\n' content.data).map String.mk) none (-1) ""

/-- The `(bandwidth, variant-URI)` pairs the selection loop encounters,
in order. -/
def variantPairsGo : List String → Option Nat → List (Nat × String)
  | [], _ => []
  | l :: rest, none =>
    if jsStartsWith "#EXT-X-STREAM-INF" l = true then
      variantPairsGo rest (some (extractBandwidth l))
    else variantPairsGo rest none
  | l :: rest, some bw =>
    if ¬ jsTrim l = "" ∧ jsStartsWith "#" (jsTrim l) = false then
      (bw, jsTrim l) :: variantPairsGo rest none
    else variantPairsGo rest (some bw)

def variantPairs (content : String) : List (Nat × String) :=
  variantPairsGo ((splitC '\n' content.data).map String.mk) none

/-- Fallback scan for the first `.m3u8` URI (part_000, lines 218-228). -/
def fallbackScan (baseUrl : String) : List String → String
  | [] => ""
  | l :: rest =>
    if ¬ jsTrim l = "" ∧ jsStartsWith "#" (jsTrim l) = false ∧
        (jsEndsWith ".m3u8" (jsTrim l) = true ∨ jsIncludes (jsTrim l) ".m3u8?" = true) then
      resolveUrl baseUrl (jsTrim l)
    else fallbackScan baseUrl rest

/-- `bestVariantUrl` after the bandwidth loop and the fallback scan. -/
def selectedVariantUrl (baseUrl content : String) : String :=
  if (selectVariant baseUrl content).2 = "" then
    fallbackScan baseUrl ((splitC '\n' content.data).map String.mk)
  else (selectVariant baseUrl content).2

def withCalls (calls : List FetchCall) :
    Except ProxyError String × List FetchCall → Except ProxyError String × List FetchCall
  | (r, t) => (r, calls ++ t)

/-- Source `processMasterPlaylist` (part_000, lines 188-258), with the
mutual recursion through `processM3u8Content` (lines 177-185) inlined at
the recursive call (line 252): a master body recurses, any other body is
rewritten as a media playlist.  `fuel` is always supplied as
`maxRecursion + 2 - recursionDepth`, so the `0` arm coincides with the
depth guard (`fuel = 0` forces `recursionDepth > maxRecursion`). -/
def processMasterPlaylistFuel (oracle : FetchOracle) (ua : String) :
    Nat → String → String → Nat → Nat → Except ProxyError String × List FetchCall
  | 0, url, _content, _recursionDepth, maxRecursion =>
    (.error (.recursionLimit maxRecursion url), [])
  | fuel + 1, url, content, recursionDepth, maxRecursion =>
    if maxRecursion < recursionDepth then (.error (.recursionLimit maxRecursion url), [])
    else if selectedVariantUrl (getBaseUrl url) content = "" then
      (.ok (processMediaPlaylist url content), [])
    else
      match fetchContentWithType oracle ua (selectedVariantUrl (getBaseUrl url) content)
          emptyInbound with
      | (.error e, calls) => (.error e, calls)
      | (.ok res, calls) =>
        if isM3u8Content res.content res.contentType = false then
          (.ok (processMediaPlaylist (selectedVariantUrl (getBaseUrl url) content) res.content),
            calls)
        else if hasMasterMarkers res.content = true then
          withCalls calls
            (processMasterPlaylistFuel oracle ua fuel
              (selectedVariantUrl (getBaseUrl url) content) res.content
              (recursionDepth + 1) maxRecursion)
        else
          (.ok (processMediaPlaylist (selectedVariantUrl (getBaseUrl url) content) res.content),
            calls)

def processMasterPlaylist (oracle : FetchOracle) (ua url content : String)
    (recursionDepth maxRecursion : Nat) : Except ProxyError String × List FetchCall :=
  processMasterPlaylistFuel oracle ua (maxRecursion + 2 - recursionDepth) url content
    recursionDepth maxRecursion

/-- Source `processM3u8Content` (part_000, lines 177-185). -/
def processM3u8Content (oracle : FetchOracle) (ua url content : String)
    (recursionDepth maxRecursion : Nat) : Except ProxyError String × List FetchCall :=
  if hasMasterMarkers content = true then
    processMasterPlaylist oracle ua url content recursionDepth maxRecursion
  else (.ok (processMediaPlaylist url content), [])

/-- The fetch-relevant part of the Vercel `handler` (part_000,
lines 262-339): decode the target, fetch it forwarding the client's
headers, and process M3U8 bodies starting at depth 0. -/
def handler (oracle : FetchOracle) (ua encodedUrlPath : String)
    (reqHeaders : InboundHeaders) (maxRecursion : Nat) :
    Except ProxyError String × List FetchCall :=
  match getTargetUrlFromPath encodedUrlPath with
  | none => (.error .invalidPath, [])
  | some targetUrl =>
    match fetchContentWithType oracle ua targetUrl reqHeaders with
    | (.error e, calls) => (.error e, calls)
    | (.ok res, calls) =>
      if isM3u8Content res.content res.contentType = true then
        withCalls calls (processM3u8Content oracle ua targetUrl res.content 0 maxRecursion)
      else (.ok res.content, calls)

end LibreTV

namespace LibreTV

/-- The outbound-call trace of a single `fetchContentWithType` has at
most one entry. -/
theorem fetch_calls_len_le (oracle : FetchOracle) (ua u : String) (h : InboundHeaders) :
    (fetchContentWithType oracle ua u h).2.length ≤ 1 := by
  rw [fetchContentWithType]
  cases buildOutboundHeaders ua u h with
  | none => simp
  | some oh =>
    cases oracle u with
    | error m => simp
    | ok r => simp

/-- Trace-length bound for the fuel-indexed master resolver. -/
theorem masterFuel_calls_le (oracle : FetchOracle) (ua : String) :
    ∀ fuel url content recursionDepth maxRecursion,
      (processMasterPlaylistFuel oracle ua fuel url content recursionDepth
          maxRecursion).2.length ≤ maxRecursion + 1 - recursionDepth := by
  intro fuel
  induction fuel with
  | zero =>
    intro url content d m
    rw [processMasterPlaylistFuel]
    simp
  | succ f ih =>
    intro url content d m
    rw [processMasterPlaylistFuel]
    by_cases hd : m < d
    · rw [if_pos hd]; simp
    · rw [if_neg hd]
      by_cases hv : selectedVariantUrl (getBaseUrl url) content = ""
      · rw [if_pos hv]; simp
      · rw [if_neg hv]
        cases hfe : fetchContentWithType oracle ua
            (selectedVariantUrl (getBaseUrl url) content) emptyInbound with
        | mk r calls =>
          have hc : calls.length ≤ 1 := by
            have h1 := fetch_calls_len_le oracle ua
              (selectedVariantUrl (getBaseUrl url) content) emptyInbound
            rw [hfe] at h1
            exact h1
          cases r with
          | error e =>
            show calls.length ≤ m + 1 - d
            omega
          | ok res =>
            dsimp only
            by_cases hmt : isM3u8Content res.content res.contentType = false
            · rw [if_pos hmt]
              show calls.length ≤ m + 1 - d
              omega
            · rw [if_neg hmt]
              by_cases hmm : hasMasterMarkers res.content = true
              · rw [if_pos hmm]
                have hrec := ih (selectedVariantUrl (getBaseUrl url) content)
                  res.content (d + 1) m
                cases hre : processMasterPlaylistFuel oracle ua f
                    (selectedVariantUrl (getBaseUrl url) content) res.content
                    (d + 1) m with
                | mk r2 t2 =>
                  rw [hre] at hrec
                  have hrec2 : t2.length ≤ m + 1 - (d + 1) := hrec
                  show (calls ++ t2).length ≤ m + 1 - d
                  rw [List.length_append]
                  omega
              · rw [if_neg hmm]
                show calls.length ≤ m + 1 - d
                omega

/-- C2 (amended): a handled request issues at most maxRecursion + 2
outbound fetches in total: the initial fetch of the target plus at most
maxRecursion + 1 variant fetches during master-playlist resolution. -/
theorem c2_fetch_count_bound (oracle : FetchOracle) (ua path : String)
    (h : InboundHeaders) (maxRecursion : Nat) :
    (handler oracle ua path h maxRecursion).2.length ≤ maxRecursion + 2 := by
  rw [handler]
  cases getTargetUrlFromPath path with
  | none => simp
  | some targetUrl =>
    dsimp only
    cases hfe : fetchContentWithType oracle ua targetUrl h with
    | mk r calls =>
      have hc : calls.length ≤ 1 := by
        have h1 := fetch_calls_len_le oracle ua targetUrl h
        rw [hfe] at h1
        exact h1
      cases r with
      | error e =>
        show calls.length ≤ maxRecursion + 2
        omega
      | ok res =>
        dsimp only
        by_cases hm : isM3u8Content res.content res.contentType = true
        · rw [if_pos hm]
          have hrec : (processM3u8Content oracle ua targetUrl res.content 0
              maxRecursion).2.length ≤ maxRecursion + 1 := by
            rw [processM3u8Content]
            by_cases hmm : hasMasterMarkers res.content = true
            · rw [if_pos hmm]
              have h2 := masterFuel_calls_le oracle ua (maxRecursion + 2 - 0)
                targetUrl res.content 0 maxRecursion
              exact le_trans h2 (by omega)
            · rw [if_neg hmm]; simp
          cases hpe : processM3u8Content oracle ua targetUrl res.content 0
              maxRecursion with
          | mk r2 t2 =>
            rw [hpe] at hrec
            have hrec2 : t2.length ≤ maxRecursion + 1 := hrec
            show (calls ++ t2).length ≤ maxRecursion + 2
            rw [List.length_append]
            omega
        · rw [if_neg hm]
          show calls.length ≤ maxRecursion + 2
          omega

/-- C2 counterexample: with maxRecursion = 0, a request for a master
playlist whose variant is again a master playlist issues 2 outbound
fetches, exceeding the claimed bound maxRecursion + 1 = 1. -/
theorem c2_counterexample :
    (handler
        (fun _ => .ok ⟨"#EXT-X-STREAM-INF:BANDWIDTH=1\nv.m3u8",
          "application/vnd.apple.mpegurl"⟩)
        "UA" "http://a/x.m3u8" ⟨none, none⟩ 0).2.length = 2 ∧ ¬ (2 ≤ 0 + 1) := by
  decide

/-- C4: for every url, body and configured bound, calling the
master-playlist resolver with depth strictly greater than maxRecursion
fails with a recursion-limit error and issues no outbound fetch,
regardless of the body's content. -/
theorem c4_recursion_limit (oracle : FetchOracle) (ua url content : String)
    (recursionDepth maxRecursion : Nat) (h : maxRecursion < recursionDepth) :
    processMasterPlaylist oracle ua url content recursionDepth maxRecursion =
      (.error (.recursionLimit maxRecursion url), []) := by
  rw [processMasterPlaylist]
  cases hf : maxRecursion + 2 - recursionDepth with
  | zero => rw [processMasterPlaylistFuel]
  | succ f => rw [processMasterPlaylistFuel, if_pos h]

/-- Witness for `c4_recursion_limit` at depth maxRecursion + 1. -/
theorem c4_recursion_limit_witness :
    (0 : Nat) < 1 ∧
      processMasterPlaylist (fun _ => .error "down") "UA" "https://h/m.m3u8"
          "#EXT-X-STREAM-INF:BANDWIDTH=1\nv.m3u8" 1 0 =
        (.error (.recursionLimit 0 "https://h/m.m3u8"), []) :=
  ⟨by decide, c4_recursion_limit (fun _ => .error "down") "UA" "https://h/m.m3u8"
    "#EXT-X-STREAM-INF:BANDWIDTH=1\nv.m3u8" 1 0 (by decide)⟩

end LibreTV

namespace LibreTV

/-- Facts about the headers built from an empty inbound set: default
Accept-Language, wildcard Accept, Referer = the target's own origin. -/
theorem buildOutbound_empty_facts (ua u : String) (oh : OutboundHeaders)
    (h : buildOutboundHeaders ua u emptyInbound = some oh) :
    oh.acceptLanguage = defaultAcceptLanguage ∧ oh.accept = "*/*" ∧
      jsUrlOrigin u = some oh.referer := by
  rw [buildOutboundHeaders] at h
  cases ho : jsUrlOrigin u with
  | none =>
    rw [ho] at h
    exact absurd h (by simp [emptyInbound])
  | some o =>
    rw [ho] at h
    have h2 : some (⟨ua, "*/*", jsOrElse emptyInbound.acceptLanguage defaultAcceptLanguage, o⟩ : OutboundHeaders) = some oh := h
    injection h2 with h3
    subst h3
    exact ⟨rfl, rfl, rfl⟩

/-- Shape of a single fetch's trace: either the Referer computation
failed and no call was made, or exactly one call to the target was made
with the headers built from the supplied inbound set. -/
theorem fetch_calls_or (oracle : FetchOracle) (ua u : String) (h : InboundHeaders) :
    fetchContentWithType oracle ua u h = (.error (.refererUrlError u), []) ∨
      ∃ oh, buildOutboundHeaders ua u h = some oh ∧
        (fetchContentWithType oracle ua u h).2 = [⟨u, oh⟩] := by
  rw [fetchContentWithType]
  cases hb : buildOutboundHeaders ua u h with
  | none => left; rfl
  | some oh =>
    right
    refine ⟨oh, rfl, ?_⟩
    cases oracle u with
    | error m => rfl
    | ok r => rfl

/-- Every call recorded by a fetch with empty inbound headers carries
the default Accept-Language, wildcard Accept, and a Referer equal to the
fetched URL's own origin. -/
theorem fetch_empty_calls_facts (oracle : FetchOracle) (ua u : String) :
    ∀ call ∈ (fetchContentWithType oracle ua u emptyInbound).2,
      call.headersSent.acceptLanguage = defaultAcceptLanguage ∧
      call.headersSent.accept = "*/*" ∧
      jsUrlOrigin call.url = some call.headersSent.referer := by
  intro call hm
  rcases fetch_calls_or oracle ua u emptyInbound with hnil | ⟨oh, hoh, hone⟩
  · rw [hnil] at hm
    exact absurd hm (by simp)
  · rw [hone] at hm
    have hm2 : call = ⟨u, oh⟩ := by simpa using hm
    subst hm2
    exact buildOutbound_empty_facts ua u oh hoh

/-- Every call in the fuel-indexed master resolver's trace is a
variant fetch with empty inbound headers. -/
theorem masterFuel_calls_facts (oracle : FetchOracle) (ua : String) :
    ∀ fuel url content recursionDepth maxRecursion,
      ∀ call ∈ (processMasterPlaylistFuel oracle ua fuel url content
          recursionDepth maxRecursion).2,
        call.headersSent.acceptLanguage = defaultAcceptLanguage ∧
        call.headersSent.accept = "*/*" ∧
        jsUrlOrigin call.url = some call.headersSent.referer := by
  intro fuel
  induction fuel with
  | zero =>
    intro url content d m call hm
    rw [processMasterPlaylistFuel] at hm
    exact absurd hm (by simp)
  | succ f ih =>
    intro url content d m call hm
    rw [processMasterPlaylistFuel] at hm
    by_cases hd : m < d
    · rw [if_pos hd] at hm
      exact absurd hm (by simp)
    · rw [if_neg hd] at hm
      by_cases hv : selectedVariantUrl (getBaseUrl url) content = ""
      · rw [if_pos hv] at hm
        exact absurd hm (by simp)
      · rw [if_neg hv] at hm
        cases hfe : fetchContentWithType oracle ua
            (selectedVariantUrl (getBaseUrl url) content) emptyInbound with
        | mk r calls =>
          rw [hfe] at hm
          have hcalls : ∀ c ∈ calls,
              c.headersSent.acceptLanguage = defaultAcceptLanguage ∧
              c.headersSent.accept = "*/*" ∧
              jsUrlOrigin c.url = some c.headersSent.referer := by
            intro c hc
            refine fetch_empty_calls_facts oracle ua
              (selectedVariantUrl (getBaseUrl url) content) c ?_
            rw [hfe]
            exact hc
          cases r with
          | error e => exact hcalls call hm
          | ok res =>
            dsimp only at hm
            by_cases hmt : isM3u8Content res.content res.contentType = false
            · rw [if_pos hmt] at hm
              exact hcalls call hm
            · rw [if_neg hmt] at hm
              by_cases hmm : hasMasterMarkers res.content = true
              · rw [if_pos hmm] at hm
                cases hre : processMasterPlaylistFuel oracle ua f
                    (selectedVariantUrl (getBaseUrl url) content) res.content
                    (d + 1) m with
                | mk r2 t2 =>
                  rw [hre] at hm
                  have hm2 : call ∈ calls ++ t2 := hm
                  rcases List.mem_append.mp hm2 with h1 | h2
                  · exact hcalls call h1
                  · refine ih (selectedVariantUrl (getBaseUrl url) content)
                      res.content (d + 1) m call ?_
                    rw [hre]
                    exact h2
              · rw [if_neg hmm] at hm
                exact hcalls call hm

/-- C10: every fetch issued during master-playlist resolution carries
the fixed default Accept-Language, a wildcard Accept, and a Referer
equal to the fetched variant URL's own origin, independently of the
client's inbound headers; in a handled request, the initial fetch is the
one call whose headers are built from the client's inbound headers, and
all later calls follow the fixed variant policy. -/
theorem c10_variant_header_policy (oracle : FetchOracle) (ua path : String)
    (h : InboundHeaders) (maxRecursion : Nat) :
    (∀ url content recursionDepth,
      ∀ call ∈ (processMasterPlaylist oracle ua url content recursionDepth
          maxRecursion).2,
        call.headersSent.acceptLanguage = defaultAcceptLanguage ∧
        call.headersSent.accept = "*/*" ∧
        jsUrlOrigin call.url = some call.headersSent.referer) ∧
    (∀ c t, (handler oracle ua path h maxRecursion).2 = c :: t →
      (∃ targetUrl, getTargetUrlFromPath path = some targetUrl ∧
        c.url = targetUrl ∧
        buildOutboundHeaders ua targetUrl h = some c.headersSent) ∧
      ∀ call ∈ t,
        call.headersSent.acceptLanguage = defaultAcceptLanguage ∧
        jsUrlOrigin call.url = some call.headersSent.referer) := by
  constructor
  · intro url content d call hm
    exact masterFuel_calls_facts oracle ua (maxRecursion + 2 - d) url content d
      maxRecursion call hm
  · intro c t heq
    rw [handler] at heq
    cases hg : getTargetUrlFromPath path with
    | none =>
      rw [hg] at heq
      exact absurd heq (by simp)
    | some targetUrl =>
      rw [hg] at heq
      dsimp only at heq
      rcases fetch_calls_or oracle ua targetUrl h with hnil | ⟨oh, hoh, hone⟩
      · rw [hnil] at heq
        exact absurd heq (by simp)
      · cases hfe : fetchContentWithType oracle ua targetUrl h with
        | mk r calls =>
          rw [hfe] at heq
          rw [hfe] at hone
          have hcalls : calls = [⟨targetUrl, oh⟩] := hone
          cases r with
          | error e =>
            have heq2 : calls = c :: t := heq
            rw [hcalls] at heq2
            have hce := List.cons_eq_cons.mp heq2.symm
            refine ⟨⟨targetUrl, rfl, ?_, ?_⟩, ?_⟩
            · rw [hce.1]
            · rw [hce.1]; exact hoh
            · rw [hce.2]; intro call hcall; exact absurd hcall (by simp)
          | ok res =>
            dsimp only at heq
            by_cases hm : isM3u8Content res.content res.contentType = true
            · rw [if_pos hm] at heq
              cases hpe : processM3u8Content oracle ua targetUrl res.content 0
                  maxRecursion with
              | mk r2 t2 =>
                rw [hpe] at heq
                have heq2 : calls ++ t2 = c :: t := heq
                rw [hcalls] at heq2
                have hce : (⟨targetUrl, oh⟩ : FetchCall) = c ∧ t2 = t := by
                  have heq3 : (⟨targetUrl, oh⟩ : FetchCall) :: t2 = c :: t := heq2
                  exact List.cons_eq_cons.mp heq3
                have htail : ∀ call ∈ t2,
                    call.headersSent.acceptLanguage = defaultAcceptLanguage ∧
                    jsUrlOrigin call.url = some call.headersSent.referer := by
                  intro call hcall
                  have hcall2 : call ∈ (processM3u8Content oracle ua targetUrl
                      res.content 0 maxRecursion).2 := by
                    rw [hpe]
                    exact hcall
                  rw [processM3u8Content] at hcall2
                  by_cases hmm : hasMasterMarkers res.content = true
                  · rw [if_pos hmm] at hcall2
                    have hf := masterFuel_calls_facts oracle ua
                      (maxRecursion + 2 - 0) targetUrl res.content 0 maxRecursion
                      call hcall2
                    exact ⟨hf.1, hf.2.2⟩
                  · rw [if_neg hmm] at hcall2
                    exact absurd hcall2 (by simp)
                refine ⟨⟨targetUrl, rfl, ?_, ?_⟩, ?_⟩
                · rw [← hce.1]
                · rw [← hce.1]; exact hoh
                · rw [← hce.2]
                  exact htail
            · rw [if_neg hm] at heq
              have heq2 : calls = c :: t := heq
              rw [hcalls] at heq2
              have hce := List.cons_eq_cons.mp heq2.symm
              refine ⟨⟨targetUrl, rfl, ?_, ?_⟩, ?_⟩
              · rw [hce.1]
              · rw [hce.1]; exact hoh
              · rw [hce.2]; intro call hcall; exact absurd hcall (by simp)

end LibreTV

namespace LibreTV

/-- Witness for `c10_variant_header_policy` on a concrete run: the
client's Accept-Language ("fr") and Referer ("http://client/") reach
only the initial fetch; the variant fetch carries the default locale
and the variant's own origin. -/
theorem c10_variant_header_policy_witness :
    (handler
        (fun _ => .ok ⟨"#EXT-X-STREAM-INF:BANDWIDTH=1\nv.m3u8",
          "application/vnd.apple.mpegurl"⟩)
        "UA" "http://a/x.m3u8" ⟨some "fr", some "http://client/"⟩ 0).2 =
      ⟨"http://a/x.m3u8", ⟨"UA", "*/*", "fr", "http://client/"⟩⟩ ::
        [⟨"http://a/v.m3u8", ⟨"UA", "*/*", defaultAcceptLanguage, "http://a"⟩⟩] ∧
    ((∃ targetUrl, getTargetUrlFromPath "http://a/x.m3u8" = some targetUrl ∧
        (⟨"http://a/x.m3u8", ⟨"UA", "*/*", "fr", "http://client/"⟩⟩ : FetchCall).url =
          targetUrl ∧
        buildOutboundHeaders "UA" targetUrl ⟨some "fr", some "http://client/"⟩ =
          some (⟨"http://a/x.m3u8",
            ⟨"UA", "*/*", "fr", "http://client/"⟩⟩ : FetchCall).headersSent) ∧
      ∀ call ∈ [(⟨"http://a/v.m3u8",
          ⟨"UA", "*/*", defaultAcceptLanguage, "http://a"⟩⟩ : FetchCall)],
        call.headersSent.acceptLanguage = defaultAcceptLanguage ∧
        jsUrlOrigin call.url = some call.headersSent.referer) :=
  ⟨by decide,
    (c10_variant_header_policy
        (fun _ => .ok ⟨"#EXT-X-STREAM-INF:BANDWIDTH=1\nv.m3u8",
          "application/vnd.apple.mpegurl"⟩)
        "UA" "http://a/x.m3u8" ⟨some "fr", some "http://client/"⟩ 0).2
      ⟨"http://a/x.m3u8", ⟨"UA", "*/*", "fr", "http://client/"⟩⟩
      [⟨"http://a/v.m3u8", ⟨"UA", "*/*", defaultAcceptLanguage, "http://a"⟩⟩]
      (by decide)⟩

end LibreTV

namespace LibreTV

/-- The accumulator update of the selection loop on one
(bandwidth, URI) pair (part_000, lines 211-214). -/
def selStep (baseUrl : String) (acc : Int × String) (p : Nat × String) : Int × String :=
  if (p.1 : Int) ≥ acc.1 then ((p.1 : Int), resolveUrl baseUrl p.2) else acc

/-- Maximum extracted bandwidth over the encountered pairs. -/
def maxBw (ps : List (Nat × String)) : Nat :=
  ps.foldl (fun a q => Nat.max a q.1) 0

/-- The selection loop is the left fold of `selStep` over the
encountered (bandwidth, URI) pairs. -/
theorem selectLoopGo_eq_fold (baseUrl : String) :
    ∀ lines mode hb bv,
      selectLoopGo baseUrl lines mode hb bv =
        List.foldl (selStep baseUrl) (hb, bv) (variantPairsGo lines mode) := by
  intro lines
  induction lines with
  | nil =>
    intro mode hb bv
    cases mode <;> rfl
  | cons l rest ih =>
    intro mode hb bv
    cases mode with
    | none =>
      rw [selectLoopGo, variantPairsGo]
      by_cases hs : jsStartsWith "#EXT-X-STREAM-INF" l = true
      · rw [if_pos hs, if_pos hs, ih]
      · rw [if_neg hs, if_neg hs, ih]
    | some bw =>
      rw [selectLoopGo, variantPairsGo]
      by_cases hc : ¬ jsTrim l = "" ∧ jsStartsWith "#" (jsTrim l) = false
      · rw [if_pos hc, if_pos hc, List.foldl_cons]
        by_cases hge : (bw : Int) ≥ hb
        · rw [if_pos hge, ih]
          have hsel : selStep baseUrl (hb, bv) (bw, jsTrim l) =
              ((bw : Int), resolveUrl baseUrl (jsTrim l)) := by
            simp [selStep, hge]
          rw [hsel]
        · rw [if_neg hge, ih]
          have hsel : selStep baseUrl (hb, bv) (bw, jsTrim l) = (hb, bv) := by
            simp [selStep, hge]
          rw [hsel]
      · rw [if_neg hc, if_neg hc, ih]

/-- Folding `selStep` from the initial accumulator (-1, "") over a
non-empty pair list selects the maximal bandwidth, and on a tie the
last pair attaining it: the selected URI is the one found by searching
the reversed list for the maximum. -/
theorem foldl_selStep_max (baseUrl : String) :
    ∀ ps : List (Nat × String), ps ≠ [] →
      ∃ uri, ps.reverse.find? (fun q => q.1 == maxBw ps) = some (maxBw ps, uri) ∧
        List.foldl (selStep baseUrl) (-1, "") ps =
          ((maxBw ps : Int), resolveUrl baseUrl uri) := by
  intro ps
  induction ps using List.reverseRecOn with
  | nil => intro hne; exact absurd rfl hne
  | append_singleton init p ih =>
    intro _
    obtain ⟨b, u⟩ := p
    have hmax : maxBw (init ++ [(b, u)]) = max (maxBw init) b := by
      rw [maxBw, List.foldl_append]
      rfl
    have hrev : (init ++ [(b, u)]).reverse = (b, u) :: init.reverse := by
      rw [List.reverse_append]
      rfl
    have hfold : List.foldl (selStep baseUrl) (-1, "") (init ++ [(b, u)]) =
        selStep baseUrl (List.foldl (selStep baseUrl) (-1, "") init) (b, u) := by
      rw [List.foldl_append]
      rfl
    by_cases hinit : init = []
    · subst hinit
      refine ⟨u, ?_, ?_⟩
      · rw [hrev, hmax]
        have hb : maxBw [] = 0 := rfl
        rw [hb, Nat.zero_max]
        rw [List.find?_cons_of_pos _ (by simp)]
      · rw [hfold, hmax, List.foldl_nil]
        have hb : maxBw [] = 0 := rfl
        rw [hb, Nat.zero_max]
        have hge : ((b, u).1 : Int) ≥ ((-1 : Int), "").1 := by
          show ((b : Int)) ≥ -1
          omega
        rw [selStep, if_pos hge]
    · obtain ⟨u0, hfind0, hfold0⟩ := ih hinit
      by_cases hle : maxBw init ≤ b
      · refine ⟨u, ?_, ?_⟩
        · rw [hrev, hmax, max_eq_right hle]
          rw [List.find?_cons_of_pos _ (by simp)]
        · rw [hfold, hmax, max_eq_right hle, hfold0]
          have hge : (((b, u).1 : Int)) ≥ (((maxBw init : Int)), resolveUrl baseUrl u0).1 := by
            show ((b : Int)) ≥ ((maxBw init : Int))
            omega
          rw [selStep, if_pos hge]
      · have hlt : b < maxBw init := Nat.lt_of_not_le hle
        refine ⟨u0, ?_, ?_⟩
        · rw [hrev, hmax, max_eq_left (Nat.le_of_lt hlt)]
          rw [List.find?_cons_of_neg _ (by simp; omega)]
          exact hfind0
        · rw [hfold, hmax, max_eq_left (Nat.le_of_lt hlt), hfold0]
          have hge : ¬ (((b, u).1 : Int)) ≥ (((maxBw init : Int)), resolveUrl baseUrl u0).1 := by
            show ¬ ((b : Int)) ≥ ((maxBw init : Int))
            omega
          rw [selStep, if_neg hge]

/-- C3: whenever the master playlist has at least one STREAM-INF block
followed by a URI line (the encountered pair list is non-empty), the
selection loop returns the maximal extracted bandwidth, and the URI of
the last block attaining that maximum (searching the reversed pair
list finds exactly the selected URI). -/
theorem c3_selects_highest_bandwidth_last (baseUrl content : String)
    (h : variantPairs content ≠ []) :
    ∃ uri, (variantPairs content).reverse.find?
        (fun q => q.1 == maxBw (variantPairs content)) =
        some (maxBw (variantPairs content), uri) ∧
      selectVariant baseUrl content =
        ((maxBw (variantPairs content) : Int), resolveUrl baseUrl uri) := by
  rw [selectVariant, selectLoopGo_eq_fold]
  exact foldl_selStep_max baseUrl (variantPairs content) h

/-- Witness for `c3_selects_highest_bandwidth_last` on a playlist with
two variants tied at bandwidth 500000: the later one (b.m3u8) wins. -/
theorem c3_selects_highest_bandwidth_last_witness :
    variantPairs "#EXT-X-STREAM-INF:BANDWIDTH=500000\na.m3u8\n#EXT-X-STREAM-INF:BANDWIDTH=500000\nb.m3u8" ≠ [] ∧
    ∃ uri,
      (variantPairs "#EXT-X-STREAM-INF:BANDWIDTH=500000\na.m3u8\n#EXT-X-STREAM-INF:BANDWIDTH=500000\nb.m3u8").reverse.find?
          (fun q => q.1 == maxBw (variantPairs "#EXT-X-STREAM-INF:BANDWIDTH=500000\na.m3u8\n#EXT-X-STREAM-INF:BANDWIDTH=500000\nb.m3u8")) =
        some (maxBw (variantPairs "#EXT-X-STREAM-INF:BANDWIDTH=500000\na.m3u8\n#EXT-X-STREAM-INF:BANDWIDTH=500000\nb.m3u8"), uri) ∧
      selectVariant "https://h/" "#EXT-X-STREAM-INF:BANDWIDTH=500000\na.m3u8\n#EXT-X-STREAM-INF:BANDWIDTH=500000\nb.m3u8" =
        ((maxBw (variantPairs "#EXT-X-STREAM-INF:BANDWIDTH=500000\na.m3u8\n#EXT-X-STREAM-INF:BANDWIDTH=500000\nb.m3u8") : Int),
          resolveUrl "https://h/" uri) :=
  ⟨by decide,
    c3_selects_highest_bandwidth_last "https://h/"
      "#EXT-X-STREAM-INF:BANDWIDTH=500000\na.m3u8\n#EXT-X-STREAM-INF:BANDWIDTH=500000\nb.m3u8"
      (by decide)⟩

end LibreTV
